import Mathlib

/-!
# go-s3hash: a shallow embedding of `app/app.go`

The pipeline of `app.Run` has four kinds of goroutine: `streamKeys` (reads the keys
file and feeds the key channel), `fetchAndHash` (a worker: fetches an object and
hashes it), `writeOutputFile` (writes one line per result and keeps the
statistics) and the log goroutine.  Each of them is embedded as a function from
what its environment hands it (the result of `os.Open`, the lines the scanner
yields, the outcome of every fetch and of every write) to the sequence of
effects it performs, in program order.  The orchestration of `Run` is embedded
as a transition system over the goroutines, with the loop bodies of the functions
as the steps of the goroutines.

Go strings are Lean `String`s, byte slices are `List Nat` (every element below
256), and a value of Go type `uint` is a `Nat` below `2 ^ w`, `w` the width of
`uint` on the platform (32 or 64).

What is taken from the Go library rather than from `app.go`:
* `os.Open` and `os.OpenFile` return a nil `*os.File` with their error, and
  every method of a nil `*os.File` (`Read`, `WriteString`, `Close`) returns
  `os.ErrInvalid`, whose text is `invalid argument`;
* `bufio.Scanner` yields the lines of its reader one by one and stops at the
  end of the input or at the first read error, which `Err()` then returns;
* `strings.TrimSpace` removes the leading and trailing characters that
  `unicode.IsSpace` accepts;
* the verb `%x` prints a byte slice as two lowercase hexadecimal digits per
  byte;
* a send on a closed channel panics, a receive loop over a channel ends when
  the channel is closed and empty, and `WaitGroup.Wait` returns when every
  `Done` has been called.

The digest (`crypto/sha256`) and the object store (`s3agent.GetObjectBytes`)
are parameters.  The function `fetchAndHash` taken alone is embedded from its
loop on, that is for a worker whose `NewS3Agent` has returned; in the run of
`Run` the call of `NewS3Agent` is the first step of every worker, and when the
AWS configuration cannot be loaded its `log.Fatal` ends the process.
-/

namespace S3Hash

/-! ## Data model (`app.go`, lines 22 to 42) -/

/-- The four named constants of `slog.Level`. -/
inductive Level where
  | LevelDebug
  | LevelInfo
  | LevelWarn
  | LevelError
deriving DecidableEq, Repr

/-- The Go struct `LogMsg`: a message for the logger goroutine. -/
structure LogMsg where
  msg : String
  level : Level
deriving DecidableEq, Repr

/-- The Go struct `Output`: the hash of one object and its size in bytes. -/
structure Output where
  key : String
  hash : List Nat
  byteLen : Nat
deriving DecidableEq, Repr

/-- The Go struct `Stats`: hashes written and bytes processed. -/
structure Stats where
  countHashesWritten : Nat
  totalBytesHashed : Nat
deriving DecidableEq, Repr

/-- The text of `os.ErrInvalid`, the error every method of `*os.File` returns
when its receiver is nil. -/
def ErrInvalid : String := "invalid argument"

/-! ## `strings.TrimSpace` -/

/-- Go's `unicode.IsSpace`: the Latin-1 spaces and the code points with the
Unicode White_Space property. -/
def isSpace (c : Char) : Bool :=
  let n := c.toNat
  n == 0x09 || n == 0x0A || n == 0x0B || n == 0x0C || n == 0x0D || n == 0x20 ||
  n == 0x85 || n == 0xA0 || n == 0x1680 || (0x2000 ≤ n && n ≤ 0x200A) ||
  n == 0x2028 || n == 0x2029 || n == 0x202F || n == 0x205F || n == 0x3000

/-- Removal of the leading and trailing white space of a list of characters. -/
def trimChars (cs : List Char) : List Char :=
  ((cs.dropWhile isSpace).reverse.dropWhile isSpace).reverse

/-- Go's `strings.TrimSpace`. -/
def TrimSpace (s : String) : String :=
  String.mk (trimChars s.data)

/-! ## `streamKeys` (`app.go`, lines 76 to 106) -/

/-- An open keys file as `bufio.Scanner` sees it: the lines `scanner.Scan()`
yields, one per successful call, and the error that ended the scan
(`none` for a clean end of file). -/
structure KeysFile where
  lines : List String
  readErr : Option String
deriving DecidableEq, Repr

/-- A `bufio.Scanner` after it has run to the end: the tokens it yielded and
what `scanner.Err()` returns. -/
structure Scanner where
  tokens : List String
  err : Option String
deriving DecidableEq, Repr

/-- The function `bufio.NewScanner` applied to a file handle that may be nil.
`Read` on a nil `*os.File` returns `ErrInvalid` without data, so the scanner
yields no token and `Err()` is `ErrInvalid`. -/
def NewScanner (keysFh : Option KeysFile) : Scanner :=
  match keysFh with
  | none => { tokens := [], err := some ErrInvalid }
  | some f => { tokens := f.lines, err := f.readErr }

/-- The effects of `streamKeys`, in program order. -/
inductive KeyEvent where
  | sendKey (key : String)
  | sendLog (m : LogMsg)
  | closeFh
  | closeKeys
deriving DecidableEq, Repr

/-- The loop `for scanner.Scan() { key := strings.TrimSpace(scanner.Text()); chanKeys <- key }`,
run over the tokens the scanner yields; `tr` is the trace so far. -/
def scanLoop : List String → List KeyEvent → List KeyEvent
  | [], tr => tr
  | text :: rest, tr => scanLoop rest (tr ++ [KeyEvent.sendKey (TrimSpace text)])

/-- The function `streamKeys`.  `osOpen` is the result of `os.Open(keysFile)`.
The two deferred calls run last, in reverse order of their `defer` statements:
`keysFh.Close()` and then `close(chanKeys)`. -/
def streamKeys (osOpen : Except String KeysFile) : List KeyEvent :=
  let (keysFh, tr0) : Option KeysFile × List KeyEvent :=
    match osOpen with
    | .error e =>
        (none, [KeyEvent.sendLog
          { msg := "unable to open keys file: " ++ e, level := Level.LevelError }])
    | .ok f => (some f, [])
  let scanner := NewScanner keysFh
  let tr1 := scanLoop scanner.tokens tr0
  let tr2 :=
    match scanner.err with
    | some e =>
        tr1 ++ [KeyEvent.sendLog
          { msg := "error reading keys file: " ++ e, level := Level.LevelError }]
    | none =>
        tr1 ++ [KeyEvent.sendLog
          { msg := "done reading keys file", level := Level.LevelDebug }]
  tr2 ++ [KeyEvent.closeFh, KeyEvent.closeKeys]

/-- The keys sent on `chanKeys`, in order. -/
def keysSent (tr : List KeyEvent) : List String :=
  tr.filterMap fun ev => match ev with
    | KeyEvent.sendKey k => some k
    | _ => none

/-- The messages sent on `logChan`, in order. -/
def keyLogsSent (tr : List KeyEvent) : List LogMsg :=
  tr.filterMap fun ev => match ev with
    | KeyEvent.sendLog m => some m
    | _ => none

/-! ## `fetchAndHash` (`app.go`, lines 108 to 126) -/

/-- The effects of one `fetchAndHash` worker, in program order. -/
inductive WorkerEvent where
  | sendLog (m : LogMsg)
  | sendOutput (o : Output)
deriving DecidableEq, Repr

/-- The character U+0027, which the format string of the fetch error puts
around the key. -/
def quoteChar : Char := Char.ofNat 39

/-- The text `fmt.Sprintf` builds for a failed fetch of `key` with error text `e`. -/
def fetchErrorMsg (key e : String) : String :=
  "unable to fetch s3 object " ++ String.singleton quoteChar ++ key ++
    String.singleton quoteChar ++ ", err: " ++ e

/-- The body of the worker loop for one key, given what
`s3agent.GetObjectBytes(key)` returned. -/
def fetchAndHashStep (sha256Hash : List Nat → List Nat) (key : String)
    (res : Except String (List Nat)) : WorkerEvent :=
  match res with
  | .error e =>
      WorkerEvent.sendLog { msg := fetchErrorMsg key e, level := Level.LevelError }
  | .ok bytes =>
      WorkerEvent.sendOutput { key := key, hash := sha256Hash bytes, byteLen := bytes.length }

/-- The function `fetchAndHash`: the loop `for key := range chanKeys`.
`GetObjectBytes n key` is what the `n`-th call of this worker to the object
store returns for `key` (a store that answers by key alone ignores `n`);
`sha256Hash` is the digest; `tr` is the trace so far.  The conversion
`uint(len(bytes))` keeps the value, a slice length being a non-negative `int`. -/
def fetchAndHash (sha256Hash : List Nat → List Nat)
    (GetObjectBytes : Nat → String → Except String (List Nat)) :
    Nat → List String → List WorkerEvent → List WorkerEvent
  | _, [], tr => tr
  | n, key :: rest, tr =>
      fetchAndHash sha256Hash GetObjectBytes (n + 1) rest
        (tr ++ [fetchAndHashStep sha256Hash key (GetObjectBytes n key)])

/-- The results a worker sent on `chanOutput`, in order. -/
def outputsSent (tr : List WorkerEvent) : List Output :=
  tr.filterMap fun ev => match ev with
    | WorkerEvent.sendOutput o => some o
    | _ => none

/-- The messages a worker sent on `logChan`, in order. -/
def workerLogsSent (tr : List WorkerEvent) : List LogMsg :=
  tr.filterMap fun ev => match ev with
    | WorkerEvent.sendLog m => some m
    | _ => none

/-! ## `writeOutputFile` (`app.go`, lines 44 to 74) -/

/-- One lowercase hexadecimal digit. -/
def hexDigit (n : Nat) : Char :=
  if n < 10 then Char.ofNat (48 + n) else Char.ofNat (87 + n)

/-- The verb `%x` on one byte: two lowercase hexadecimal digits. -/
def hexByte (b : Nat) : List Char :=
  [hexDigit (b / 16 % 16), hexDigit (b % 16)]

/-- The verb `%x` on a byte slice: two digits per byte, no separator. -/
def hexBytes : List Nat → List Char
  | [] => []
  | b :: bs => hexByte b ++ hexBytes bs

/-- The backslash character. -/
def backslash : Char := Char.ofNat 92

/-- The line feed character. -/
def newline : Char := Char.ofNat 10

/-- The literal text of the format string between the verbs `%s` and `%x`:
the Go literal spells four backslashes, which denote two backslash
characters, after a comma and before the letter x. -/
def formatMiddle : List Char := [',', backslash, backslash, 'x']

/-- The string `fmt.Sprintf` builds from the format of line 59 for one record. -/
def formatOutput (output : Output) : String :=
  String.mk (output.key.data ++ formatMiddle ++ hexBytes output.hash ++ [newline])

/-- An open output file: the error, if any, of the `n`-th call of `WriteString`
on it with the given text. -/
structure OutFile where
  writeErr : Nat → String → Option String

/-- The method `WriteString` on a file handle that may be nil: on a nil
`*os.File` it returns `ErrInvalid`. -/
def WriteString (outFh : Option OutFile) (n : Nat) (s : String) : Option String :=
  match outFh with
  | none => some ErrInvalid
  | some f => f.writeErr n s

/-- The effects of `writeOutputFile`, in program order. -/
inductive WriterEvent where
  | sendLog (m : LogMsg)
  | writeString (s : String) (err : Option String)
  | sendStats (st : Stats)
  | closeFh
deriving DecidableEq, Repr

/-- The local variables of `writeOutputFile` inside its loop, with the number
of `WriteString` calls made and the trace so far. -/
structure WriterState where
  calls : Nat
  countHashesWritten : Nat
  totalBytesHashed : Nat
  trace : List WriterEvent
deriving DecidableEq, Repr

/-- The message the writer logs when `WriteString` returns the error `e`. -/
def writeErrorMsg (e : String) : LogMsg :=
  { msg := "error writing to output file: " ++ e, level := Level.LevelError }

/-- The body of the loop of `writeOutputFile` for one record; `w` is the
width of `uint`, in which the two counters are kept. -/
def writeStep (w : Nat) (outFh : Option OutFile) (output : Output) (st : WriterState) :
    WriterState :=
  let outStr := formatOutput output
  match WriteString outFh st.calls outStr with
  | some e =>
      { st with
        calls := st.calls + 1
        trace := st.trace ++
          [WriterEvent.writeString outStr (some e), WriterEvent.sendLog (writeErrorMsg e)] }
  | none =>
      { calls := st.calls + 1
        countHashesWritten := (st.countHashesWritten + 1) % 2 ^ w
        totalBytesHashed := (st.totalBytesHashed + output.byteLen) % 2 ^ w
        trace := st.trace ++ [WriterEvent.writeString outStr none] }

/-- The loop `for output := range chanOutput` of `writeOutputFile`. -/
def writeLoop (w : Nat) (outFh : Option OutFile) :
    List Output → WriterState → WriterState
  | [], st => st
  | output :: rest, st => writeLoop w outFh rest (writeStep w outFh output st)

/-- The state of `writeOutputFile` when it enters its loop: the handle
`os.OpenFile` returned (nil on an error) and, on an error, the message logged. -/
def writerStart (osOpenFile : Except String OutFile) : Option OutFile × List WriterEvent :=
  match osOpenFile with
  | .error e =>
      (none, [WriterEvent.sendLog
        { msg := "unable to open output file: " ++ e, level := Level.LevelError }])
  | .ok f => (some f, [])

/-- The function `writeOutputFile`.  `osOpenFile` is the result of
`os.OpenFile(outputFilename, ...)`; `chanOutput` is what the result channel
delivers before it is closed.  The deferred `outFh.Close()` runs last. -/
def writeOutputFile (w : Nat) (osOpenFile : Except String OutFile)
    (chanOutput : List Output) : List WriterEvent :=
  let (outFh, tr0) := writerStart osOpenFile
  let st := writeLoop w outFh chanOutput
    { calls := 0, countHashesWritten := 0, totalBytesHashed := 0, trace := tr0 }
  st.trace ++
    [WriterEvent.sendStats
      { countHashesWritten := st.countHashesWritten,
        totalBytesHashed := st.totalBytesHashed },
     WriterEvent.closeFh]

/-- The messages the writer sent on `logChan`, in order. -/
def writerLogsSent (tr : List WriterEvent) : List LogMsg :=
  tr.filterMap fun ev => match ev with
    | WriterEvent.sendLog m => some m
    | _ => none

/-- The statistics the writer sent on `chanStats`, in order. -/
def statsSent (tr : List WriterEvent) : List Stats :=
  tr.filterMap fun ev => match ev with
    | WriterEvent.sendStats st => some st
    | _ => none

/-- The texts passed to `WriteString`, in order, with the error each call returned. -/
def writeCalls (tr : List WriterEvent) : List (String × Option String) :=
  tr.filterMap fun ev => match ev with
    | WriterEvent.writeString s err => some (s, err)
    | _ => none

/-- The records of `chanOutput` whose `WriteString` call returned no error,
the first call having number `n`. -/
def writtenRecords (outFh : Option OutFile) (n : Nat) (chanOutput : List Output) :
    List Output :=
  ((chanOutput.enumFrom n).filter
    (fun p => (WriteString outFh p.1 (formatOutput p.2)).isNone)).map Prod.snd

/-- The file handle `os.Open` or `os.OpenFile` returns: nil on an error. -/
def handleOf {α : Type} (res : Except String α) : Option α :=
  match res with
  | .error _ => none
  | .ok f => some f

/-- The effect of the `i`-th key of a worker: what `fetchAndHashStep` does with
the answer of the `i`-th call to the store. -/
def effectOf (sha256Hash : List Nat → List Nat)
    (GetObjectBytes : Nat → String → Except String (List Nat)) (p : Nat × String) :
    WorkerEvent :=
  fetchAndHashStep sha256Hash p.2 (GetObjectBytes p.1 p.2)

/-! ## `Run` (`app.go`, lines 158 to 215): the goroutines running together

The goroutines of `Run` are composed into one transition system.  A state
holds the program position and the local variables of every goroutine and the
contents of the four channels; an action names the goroutine that takes the
next step.  A send on an unbuffered channel (`chanOutput`, `logChan`) is one
step of the sender, enabled when the receiver waits at its receive; a send on
a buffered channel (`chanKeys`, of capacity `numThreads`, and `statsChan`, of
capacity 1) is enabled while the buffer has room.  A send on a closed channel
panics, which ends the process, and so does the `log.Fatal` of `NewS3Agent`.
When `Run` has returned the process exits and no goroutine takes another
step. -/

/-- What `Run` is given from outside: the flag `--num-threads`, the results
of opening the keys file and the output file, the error, if any, that
`config.LoadDefaultConfig` returns inside `NewS3Agent`, the object store
(answering by key), the digest, and the width of `uint`. -/
structure Env where
  numThreads : Nat
  osOpen : Except String KeysFile
  osOpenFile : Except String OutFile
  LoadDefaultConfig : Option String
  GetObjectBytes : String → Except String (List Nat)
  sha256Hash : List Nat → List Nat
  w : Nat

/-- The program position of a `fetchAndHash` worker: before `NewS3Agent`
(line 110), at the receive of its loop, at one of its two sends, or returned. -/
inductive WorkerPc where
  | start
  | recv
  | sendOutput (o : Output)
  | sendLog (m : LogMsg)
  | exited
deriving DecidableEq, Repr

/-- The program position of the writer goroutine. -/
inductive WriterPc where
  | sendLog (m : LogMsg)
  | recv
  | exited
deriving DecidableEq, Repr

/-- The program position of `Run` once every goroutine is started: the
statement it is about to execute, in the order of lines 196 to 215. -/
inductive MainPc where
  | waitWorkers
  | closeOutput
  | waitWriter
  | recvStats
  | closeLog
  | waitLog
  | summary
  | done
deriving DecidableEq, Repr

/-- The state of a run. -/
structure RunState where
  /-- The effects `streamKeys` has still to perform. -/
  src : List KeyEvent
  /-- The buffer of `chanKeys`. -/
  keysBuf : List String
  keysClosed : Bool
  workers : List WorkerPc
  /-- The receives from `chanKeys` so far, in order: the worker and the key it
  received. -/
  received : List (Nat × String)
  outputClosed : Bool
  /-- The local variables of `writeOutputFile` and the record of its effects. -/
  writer : WriterState
  writerPc : WriterPc
  /-- The buffer of `statsChan`. -/
  statsBuf : Option Stats
  logClosed : Bool
  /-- The messages the log goroutine has passed to the logger, in order. -/
  logged : List LogMsg
  sinkExited : Bool
  mainPc : MainPc
  /-- The local variable `stats` of `Run`. -/
  stats : Option Stats
  /-- The statements of lines 196 to 215 that `Run` has executed, in order. -/
  mainTrace : List MainPc
  panicked : Bool
  /-- Whether `log.Fatal` has ended the process (`NewS3Agent`, `s3agent.go` line 23). -/
  fatal : Bool

/-- The goroutine that takes the next step. -/
inductive Action where
  | src
  | worker (i : Nat)
  | writer
  | sink
  | main
deriving DecidableEq, Repr

/-- The state in which every goroutine of `Run` is started and none has sent
or received anything: the writer has called `os.OpenFile`, `streamKeys` has
its whole trace before it, every worker is about to call `NewS3Agent`, and
`Run` is about to execute line 196.  Starting a goroutine changes nothing another goroutine
can see, so the steps a goroutine takes while `Run` still starts the others
are steps from this state all the same. -/
def initState (env : Env) : RunState :=
  { src := streamKeys env.osOpen
    keysBuf := []
    keysClosed := false
    workers := List.replicate env.numThreads WorkerPc.start
    received := []
    outputClosed := false
    writer :=
      { calls := 0, countHashesWritten := 0, totalBytesHashed := 0,
        trace := (writerStart env.osOpenFile).2 }
    writerPc :=
      match env.osOpenFile with
      | .error e =>
          WriterPc.sendLog
            { msg := "unable to open output file: " ++ e, level := Level.LevelError }
      | .ok _ => WriterPc.recv
    statsBuf := none
    logClosed := false
    logged := []
    sinkExited := false
    mainPc := MainPc.waitWorkers
    stats := none
    mainTrace := []
    panicked := false
    fatal := false }

/-- A send of `m` on `logChan`: a panic when the channel is closed, else the
log goroutine receives `m` and passes it to the logger. -/
def logSend (s : RunState) (m : LogMsg) : RunState :=
  if s.logClosed then { s with panicked := true }
  else { s with logged := s.logged ++ [m] }

/-- The position of a worker after it received `key`: it fetched and hashed
the object and is about to send the result or the error message. -/
def afterFetch (env : Env) (key : String) : WorkerPc :=
  match fetchAndHashStep env.sha256Hash key (env.GetObjectBytes key) with
  | WorkerEvent.sendLog m => WorkerPc.sendLog m
  | WorkerEvent.sendOutput o => WorkerPc.sendOutput o

/-- The position of the writer after it received `output` and called
`WriteString`: at the send of the error message when the call failed. -/
def afterWrite (env : Env) (st : WriterState) (output : Output) : WriterPc :=
  match WriteString (handleOf env.osOpenFile) st.calls (formatOutput output) with
  | some e => WriterPc.sendLog (writeErrorMsg e)
  | none => WriterPc.recv

/-- One step of the goroutine that runs `streamKeys`. -/
def stepSrc (env : Env) (s : RunState) : Option RunState :=
  match s.src with
  | [] => none
  | KeyEvent.sendKey key :: rest =>
      if s.keysClosed then some { s with panicked := true }
      else if s.keysBuf.length < env.numThreads then
        some { s with keysBuf := s.keysBuf ++ [key], src := rest }
      else none
  | KeyEvent.sendLog m :: rest => some { logSend s m with src := rest }
  | KeyEvent.closeFh :: rest => some { s with src := rest }
  | KeyEvent.closeKeys :: rest =>
      if s.keysClosed then some { s with panicked := true }
      else some { s with keysClosed := true, src := rest }

/-- One step of worker `i`.  Its first step is `NewS3Agent`, which calls
`log.Fatal` and so ends the process when the configuration does not load. -/
def stepWorker (env : Env) (s : RunState) (i : Nat) : Option RunState :=
  match s.workers[i]? with
  | none => none
  | some WorkerPc.start =>
      match env.LoadDefaultConfig with
      | some _ => some { s with fatal := true }
      | none => some { s with workers := s.workers.set i WorkerPc.recv }
  | some WorkerPc.recv =>
      match s.keysBuf with
      | key :: rest =>
          some { s with
            keysBuf := rest
            workers := s.workers.set i (afterFetch env key)
            received := s.received ++ [(i, key)] }
      | [] =>
          if s.keysClosed then some { s with workers := s.workers.set i WorkerPc.exited }
          else none
  | some (WorkerPc.sendOutput o) =>
      if s.outputClosed then some { s with panicked := true }
      else if s.writerPc = WriterPc.recv then
        some { s with
          writer := writeStep env.w (handleOf env.osOpenFile) o s.writer
          writerPc := afterWrite env s.writer o
          workers := s.workers.set i WorkerPc.recv }
      else none
  | some (WorkerPc.sendLog m) =>
      some { logSend s m with workers := s.workers.set i WorkerPc.recv }
  | some WorkerPc.exited => none

/-- One step of the writer on its own: the send of a pending log message, or,
when `chanOutput` is closed, the end of the loop, the send of the statistics
on `statsChan` and the return. -/
def stepWriter (_env : Env) (s : RunState) : Option RunState :=
  match s.writerPc with
  | WriterPc.sendLog m => some { logSend s m with writerPc := WriterPc.recv }
  | WriterPc.recv =>
      if s.outputClosed then
        match s.statsBuf with
        | some _ => none
        | none =>
            some { s with
              statsBuf := some
                { countHashesWritten := s.writer.countHashesWritten,
                  totalBytesHashed := s.writer.totalBytesHashed }
              writer := { s.writer with
                trace := s.writer.trace ++
                  [WriterEvent.sendStats
                    { countHashesWritten := s.writer.countHashesWritten,
                      totalBytesHashed := s.writer.totalBytesHashed },
                   WriterEvent.closeFh] }
              writerPc := WriterPc.exited }
      else none
  | WriterPc.exited => none

/-- One step of the log goroutine on its own: the end of its loop when
`logChan` is closed. -/
def stepSink (_env : Env) (s : RunState) : Option RunState :=
  if s.logClosed && !s.sinkExited then some { s with sinkExited := true } else none

/-- One step of `Run` itself, lines 196 to 215. -/
def stepMain (_env : Env) (s : RunState) : Option RunState :=
  match s.mainPc with
  | MainPc.waitWorkers =>
      if s.workers.all (fun pc => pc == WorkerPc.exited) then
        some { s with mainPc := MainPc.closeOutput,
                      mainTrace := s.mainTrace ++ [MainPc.waitWorkers] }
      else none
  | MainPc.closeOutput =>
      if s.outputClosed then some { s with panicked := true }
      else
        some { s with outputClosed := true, mainPc := MainPc.waitWriter,
                      mainTrace := s.mainTrace ++ [MainPc.closeOutput] }
  | MainPc.waitWriter =>
      if s.writerPc = WriterPc.exited then
        some { s with mainPc := MainPc.recvStats,
                      mainTrace := s.mainTrace ++ [MainPc.waitWriter] }
      else none
  | MainPc.recvStats =>
      match s.statsBuf with
      | some st =>
          some { s with stats := some st, statsBuf := none, mainPc := MainPc.closeLog,
                        mainTrace := s.mainTrace ++ [MainPc.recvStats] }
      | none => none
  | MainPc.closeLog =>
      if s.logClosed then some { s with panicked := true }
      else
        some { s with logClosed := true, mainPc := MainPc.waitLog,
                      mainTrace := s.mainTrace ++ [MainPc.closeLog] }
  | MainPc.waitLog =>
      if s.sinkExited then
        some { s with mainPc := MainPc.summary,
                      mainTrace := s.mainTrace ++ [MainPc.waitLog] }
      else none
  | MainPc.summary =>
      some { s with mainPc := MainPc.done, mainTrace := s.mainTrace ++ [MainPc.summary] }
  | MainPc.done => none

/-- One step of the run: the step of the goroutine the action names, when it
is enabled.  After a panic, after `log.Fatal`, and after `Run` has returned,
there is no step. -/
def step (env : Env) (s : RunState) (a : Action) : Option RunState :=
  if s.panicked || s.fatal || s.mainPc == MainPc.done then none
  else
    match a with
    | Action.src => stepSrc env s
    | Action.worker i => stepWorker env s i
    | Action.writer => stepWriter env s
    | Action.sink => stepSink env s
    | Action.main => stepMain env s

/-- The run under a schedule: the state after the actions of the list, taken
in order, when each is enabled in its turn. -/
def run (env : Env) : RunState → List Action → Option RunState
  | s, [] => some s
  | s, a :: rest =>
      match step env s a with
      | none => none
      | some t => run env t rest

/-- The texts the writer has passed to `WriteString`, in order. -/
def attemptedLines (s : RunState) : List String :=
  (writeCalls s.writer.trace).map Prod.fst

/-- The lines written whole to the output file: the texts whose `WriteString`
returned no error.  A `WriteString` that returns an error may have left a part
of its text in the file; that part is not counted here, so this is the content
of the file exactly when no write fails. -/
def outputLines (s : RunState) : List String :=
  (writeCalls s.writer.trace).filterMap
    (fun c => match c.2 with
      | none => some c.1
      | some _ => none)

/-- The output line a key stands for: the line of its result when the fetch
succeeds, none when it fails. -/
def lineOf (env : Env) (key : String) : Option String :=
  match env.GetObjectBytes key with
  | .error _ => none
  | .ok bytes =>
      some (formatOutput
        { key := key, hash := env.sha256Hash bytes, byteLen := bytes.length })

/-- The fixed order of the shutdown statements of `Run`. -/
def shutdownOrder : List MainPc :=
  [MainPc.waitWorkers, MainPc.closeOutput, MainPc.waitWriter, MainPc.recvStats,
   MainPc.closeLog, MainPc.waitLog, MainPc.summary]

/-- The number of shutdown statements `Run` has executed at a position. -/
def MainPc.idx : MainPc → Nat
  | MainPc.waitWorkers => 0
  | MainPc.closeOutput => 1
  | MainPc.waitWriter => 2
  | MainPc.recvStats => 3
  | MainPc.closeLog => 4
  | MainPc.waitLog => 5
  | MainPc.summary => 6
  | MainPc.done => 7

/-! ## Invariants and measure of the run -/

/-- The statistics held in the local variables of the writer. -/
def statsOf (st : WriterState) : Stats :=
  { countHashesWritten := st.countHashesWritten, totalBytesHashed := st.totalBytesHashed }

/-- What holds of the shutdown of `Run` in every state of every run. -/
structure OrderInv (s : RunState) : Prop where
  trace : s.mainTrace = shutdownOrder.take s.mainPc.idx
  outputClosed : s.outputClosed = true ↔ 2 ≤ s.mainPc.idx
  logClosed : s.logClosed = true ↔ 5 ≤ s.mainPc.idx
  workers : 1 ≤ s.mainPc.idx → ∀ pc ∈ s.workers, pc = WorkerPc.exited
  writer : 3 ≤ s.mainPc.idx → s.writerPc = WriterPc.exited
  writerOut : s.writerPc = WriterPc.exited → s.outputClosed = true
  statsBuf : s.mainPc.idx ≤ 3 →
    s.statsBuf = if s.writerPc = WriterPc.exited then some (statsOf s.writer) else none
  stats : 4 ≤ s.mainPc.idx → s.stats = some (statsOf s.writer)
  sink : 6 ≤ s.mainPc.idx → s.sinkExited = true
  sinkLog : s.sinkExited = true → s.logClosed = true
  fatal : s.fatal = true → s.mainPc.idx = 0

/-- The output line a worker holds: the line of the result it is about to send. -/
def held1 (pc : WorkerPc) : Option String :=
  match pc with
  | WorkerPc.sendOutput o => some (formatOutput o)
  | _ => none

/-- The output lines of the results the workers are about to send. -/
def heldLines (ws : List WorkerPc) : List String :=
  ws.filterMap held1

/-- The keys not yet received by a worker: those in the buffer of `chanKeys`
and those `streamKeys` has still to send. -/
def pendingKeys (s : RunState) : List String :=
  s.keysBuf ++ keysSent s.src

/-- The output lines of a state, as a multiset: those passed to `WriteString`,
those held by workers and those the pending keys stand for. -/
def linesOf (env : Env) (s : RunState) : Multiset String :=
  (↑(attemptedLines s) : Multiset String) + ↑(heldLines s.workers) +
    ↑((pendingKeys s).filterMap (lineOf env))

/-- The keys of a state, as a multiset: those some worker has received and
those not yet received. -/
def keysOf (s : RunState) : Multiset String :=
  (↑(s.received.map Prod.snd) : Multiset String) + ↑(pendingKeys s)

/-- What holds of the key channel in every state of every run. -/
structure KeysInv (env : Env) (s : RunState) : Prop where
  nWorkers : s.workers.length = env.numThreads
  srcShape :
    (s.keysClosed = false ∧
      ∃ pre, s.src = pre ++ [KeyEvent.closeKeys] ∧ KeyEvent.closeKeys ∉ pre) ∨
    (s.keysClosed = true ∧ s.src = [])
  exitedKeys : WorkerPc.exited ∈ s.workers → s.keysClosed = true ∧ s.keysBuf = []
  bufLen : s.keysBuf.length ≤ env.numThreads

/-- The weight of an effect `streamKeys` has still to perform. -/
def srcWeight : KeyEvent → Nat
  | KeyEvent.sendKey _ => 4
  | _ => 1

/-- The weight of the position of a worker. -/
def workerWeight : WorkerPc → Nat
  | WorkerPc.start => 2
  | WorkerPc.recv => 1
  | WorkerPc.sendOutput _ => 3
  | WorkerPc.sendLog _ => 2
  | WorkerPc.exited => 0

/-- The weight of the position of the writer. -/
def writerWeight : WriterPc → Nat
  | WriterPc.sendLog _ => 2
  | WriterPc.recv => 1
  | WriterPc.exited => 0

/-- A bound on the number of steps a run can still take. -/
def runMeasure (s : RunState) : Nat :=
  (s.src.map srcWeight).sum + 3 * s.keysBuf.length + (s.workers.map workerWeight).sum +
    writerWeight s.writerPc + (if s.sinkExited then 0 else 1) + (7 - s.mainPc.idx) +
    (if s.panicked then 0 else 1) + (if s.fatal then 0 else 1)

/-- Every call of `WriteString` on record returned what the file handle
returns for its text at some call number. -/
def WritesInv (env : Env) (s : RunState) : Prop :=
  ∀ c ∈ writeCalls s.writer.trace,
    ∃ n, c.2 = WriteString (handleOf env.osOpenFile) n c.1

/-- The lines the keys of the keys file stand for, in file order: one line per
key whose fetch succeeds. -/
def expectedLines (env : Env) : List String :=
  (keysSent (streamKeys env.osOpen)).filterMap (lineOf env)

/-! ## A sample run -/

/-- A sample environment with `n` workers: a keys file of two lines, a
configuration that loads, an object store that holds the two bytes `hi` under
`a.txt` and nothing else, an output file on which every write succeeds, and
for the digest the SHA-256 value of the bytes `hi`, the only content the store
returns. -/
def sampleEnv (n : Nat) : Env :=
  { numThreads := n
    osOpen := .ok { lines := ["a.txt", " missing.txt "], readErr := none }
    osOpenFile := .ok { writeErr := fun _ _ => none }
    LoadDefaultConfig := none
    GetObjectBytes := fun key => if key = "a.txt" then .ok [104, 105] else .error "NoSuchKey"
    sha256Hash := fun _ =>
      [143, 67, 67, 70, 100, 143, 107, 150, 223, 137, 221, 169, 1, 197, 23, 107,
       16, 166, 216, 57, 97, 221, 60, 26, 200, 139, 89, 178, 220, 50, 122, 164]
    w := 64 }

/-- The output line of `a.txt` in the sample environment. -/
def sampleLine : String :=
  String.mk ("a.txt".data ++ [',', backslash, backslash, 'x'] ++
    "8f434346648f6b96df89dda901c5176b10a6d83961dd3c1ac88b59b2dc327aa4".data ++ [newline])

/-- A schedule of the sample environment with `n` workers, `n` at least 1:
every worker creates its agent, worker 0 handles both keys one after the
other, `streamKeys` finishes, every worker leaves its loop, and `Run` shuts
down. -/
def sampleSchedule (n : Nat) : List Action :=
  (List.range n).map Action.worker ++
  [Action.src, Action.worker 0, Action.worker 0,
   Action.src, Action.worker 0, Action.worker 0,
   Action.src, Action.src, Action.src] ++
  (List.range n).map Action.worker ++
  [Action.main, Action.main, Action.writer, Action.main, Action.main, Action.main,
   Action.sink, Action.main, Action.main]

/-- The schedule without workers: `Run` shuts down at once while `streamKeys`
waits to send its first key. -/
def zeroSchedule : List Action :=
  [Action.main, Action.main, Action.writer, Action.main, Action.main, Action.main,
   Action.sink, Action.main, Action.main]

/-- An environment with two workers in which the first call of `WriteString`
fails and every later one succeeds: a keys file of two lines, an object store
that holds the two bytes `hi` under every key, and for the digest the SHA-256
value of the bytes `hi`. -/
def failingWriteEnv : Env :=
  { numThreads := 2
    osOpen := .ok { lines := ["a.txt", "b.txt"], readErr := none }
    osOpenFile :=
      .ok { writeErr := fun n _ => if n = 0 then some "no space left on device" else none }
    LoadDefaultConfig := none
    GetObjectBytes := fun _ => .ok [104, 105]
    sha256Hash := fun _ =>
      [143, 67, 67, 70, 100, 143, 107, 150, 223, 137, 221, 169, 1, 197, 23, 107,
       16, 166, 216, 57, 97, 221, 60, 26, 200, 139, 89, 178, 220, 50, 122, 164]
    w := 64 }

/-- The output line of `b.txt` in `failingWriteEnv`. -/
def sampleLineB : String :=
  String.mk ("b.txt".data ++ [',', backslash, backslash, 'x'] ++
    "8f434346648f6b96df89dda901c5176b10a6d83961dd3c1ac88b59b2dc327aa4".data ++ [newline])

/-- A schedule of `failingWriteEnv`: both workers create their agents, both
keys are sent, worker 0 receives `a.txt` and worker 1 receives `b.txt`; then
worker `first` sends its result to the writer, whose write fails and is
logged, and worker `second` sends its result, whose write succeeds;
`streamKeys` finishes, both workers leave their loops, and `Run` shuts down. -/
def failingWriteSchedule (first second : Nat) : List Action :=
  [Action.worker 0, Action.worker 1, Action.src, Action.src,
   Action.worker 0, Action.worker 1,
   Action.worker first, Action.writer, Action.worker second,
   Action.src, Action.src, Action.src, Action.worker 0, Action.worker 1,
   Action.main, Action.main, Action.writer, Action.main, Action.main, Action.main,
   Action.sink, Action.main, Action.main]

/-- The result of a worker for the key `a.txt` holding the five bytes `hello`:
their SHA-256 digest and their number. -/
def helloRecord : Output :=
  { key := "a.txt"
    hash := [44, 242, 77, 186, 95, 176, 163, 14, 38, 232, 59, 42, 197, 185, 226, 158,
             27, 22, 30, 92, 31, 167, 66, 94, 115, 4, 51, 98, 147, 139, 152, 36]
    byteLen := 5 }

/-- The sixteen lowercase hexadecimal digits, in order of value. -/
def hexAlphabet : List Char := "0123456789abcdef".data

/-! ## Lemmas on `streamKeys` -/

theorem scanLoop_eq (ts : List String) (tr : List KeyEvent) :
    scanLoop ts tr = tr ++ ts.map (fun t => KeyEvent.sendKey (TrimSpace t)) := by
  induction ts generalizing tr with
  | nil => simp [scanLoop]
  | cons t rest ih => simp [scanLoop, ih]

theorem keysSent_append (a b : List KeyEvent) :
    keysSent (a ++ b) = keysSent a ++ keysSent b := by
  simp [keysSent, List.filterMap_append]

theorem keyLogsSent_append (a b : List KeyEvent) :
    keyLogsSent (a ++ b) = keyLogsSent a ++ keyLogsSent b := by
  simp [keyLogsSent, List.filterMap_append]

theorem keysSent_sendKeys (ts : List String) :
    keysSent (ts.map (fun t => KeyEvent.sendKey (TrimSpace t))) = ts.map TrimSpace := by
  induction ts with
  | nil => rfl
  | cons t rest ih =>
      simp only [List.map_cons]
      rw [← ih]
      rfl

theorem keyLogsSent_sendKeys (ts : List String) :
    keyLogsSent (ts.map (fun t => KeyEvent.sendKey (TrimSpace t))) = [] := by
  induction ts with
  | nil => rfl
  | cons t rest ih =>
      simp only [List.map_cons]
      rw [← ih]
      rfl

theorem dropWhile_eq_nil_of_all {α : Type} (p : α → Bool) (l : List α)
    (h : ∀ a ∈ l, p a = true) : l.dropWhile p = [] := by
  induction l with
  | nil => rfl
  | cons a rest ih =>
      have ha : p a = true := h a (List.mem_cons_self a rest)
      have hr : ∀ b ∈ rest, p b = true := fun b hb => h b (List.mem_cons_of_mem a hb)
      simp [List.dropWhile, ha, ih hr]

theorem trimChars_of_all_space (cs : List Char) (h : ∀ c ∈ cs, isSpace c = true) :
    trimChars cs = [] := by
  simp [trimChars, dropWhile_eq_nil_of_all isSpace cs h]

theorem TrimSpace_of_all_space (s : String) (h : ∀ c ∈ s.data, isSpace c = true) :
    TrimSpace s = "" := by
  simp only [TrimSpace, trimChars_of_all_space s.data h]

theorem trimChars_parts (cs : List Char) :
    ∃ pre post : List Char,
      cs = pre ++ trimChars cs ++ post ∧
      (∀ c ∈ pre, isSpace c = true) ∧ (∀ c ∈ post, isSpace c = true) ∧
      (∀ c, (trimChars cs).head? = some c → isSpace c = false) ∧
      (∀ c, (trimChars cs).getLast? = some c → isSpace c = false) := by
  refine ⟨cs.takeWhile isSpace,
    ((cs.dropWhile isSpace).reverse.takeWhile isSpace).reverse, ?_, ?_, ?_, ?_, ?_⟩
  · have h1 := List.takeWhile_append_dropWhile isSpace cs
    have h2 := List.takeWhile_append_dropWhile isSpace (cs.dropWhile isSpace).reverse
    have h3 : cs.dropWhile isSpace =
        ((cs.dropWhile isSpace).reverse.dropWhile isSpace).reverse ++
          ((cs.dropWhile isSpace).reverse.takeWhile isSpace).reverse := by
      rw [← List.reverse_append, h2, List.reverse_reverse]
    unfold trimChars
    rw [List.append_assoc, ← h3, h1]
  · intro c hc
    exact List.mem_takeWhile_imp hc
  · intro c hc
    exact List.mem_takeWhile_imp (List.mem_reverse.1 hc)
  · intro c hc
    have hd := List.head?_dropWhile_not isSpace cs
    have h2 := List.takeWhile_append_dropWhile isSpace (cs.dropWhile isSpace).reverse
    have h3 : cs.dropWhile isSpace =
        ((cs.dropWhile isSpace).reverse.dropWhile isSpace).reverse ++
          ((cs.dropWhile isSpace).reverse.takeWhile isSpace).reverse := by
      rw [← List.reverse_append, h2, List.reverse_reverse]
    have hh : (cs.dropWhile isSpace).head? = some c := by
      rw [h3, List.head?_append]
      unfold trimChars at hc
      rw [hc]
      rfl
    rw [hh] at hd
    exact hd
  · intro c hc
    unfold trimChars at hc
    rw [List.getLast?_reverse] at hc
    have hd := List.head?_dropWhile_not isSpace (cs.dropWhile isSpace).reverse
    rw [hc] at hd
    exact hd

theorem streamKeys_ok_eq (f : KeysFile) :
    streamKeys (.ok f) =
      f.lines.map (fun t => KeyEvent.sendKey (TrimSpace t)) ++
        [KeyEvent.sendLog
            (match f.readErr with
              | some e => { msg := "error reading keys file: " ++ e, level := Level.LevelError }
              | none => { msg := "done reading keys file", level := Level.LevelDebug }),
          KeyEvent.closeFh, KeyEvent.closeKeys] := by
  cases hf : f.readErr <;> simp [streamKeys, NewScanner, scanLoop_eq, hf]

theorem streamKeys_error_eq (e : String) :
    streamKeys (.error e) =
      [KeyEvent.sendLog { msg := "unable to open keys file: " ++ e, level := Level.LevelError },
       KeyEvent.sendLog
         { msg := "error reading keys file: " ++ ErrInvalid, level := Level.LevelError },
       KeyEvent.closeFh, KeyEvent.closeKeys] := by
  simp [streamKeys, NewScanner, scanLoop]

theorem streamKeys_shape (osOpen : Except String KeysFile) :
    ∃ pre : List KeyEvent,
      streamKeys osOpen = pre ++ [KeyEvent.closeKeys] ∧ KeyEvent.closeKeys ∉ pre := by
  cases osOpen with
  | error e =>
      refine ⟨[KeyEvent.sendLog
          { msg := "unable to open keys file: " ++ e, level := Level.LevelError },
        KeyEvent.sendLog
          { msg := "error reading keys file: " ++ ErrInvalid, level := Level.LevelError },
        KeyEvent.closeFh], ?_, ?_⟩
      · rw [streamKeys_error_eq]; rfl
      · simp
  | ok f =>
      refine ⟨f.lines.map (fun t => KeyEvent.sendKey (TrimSpace t)) ++
        [KeyEvent.sendLog
            (match f.readErr with
              | some e => { msg := "error reading keys file: " ++ e, level := Level.LevelError }
              | none => { msg := "done reading keys file", level := Level.LevelDebug }),
          KeyEvent.closeFh], ?_, ?_⟩
      · rw [streamKeys_ok_eq]; simp
      · simp

/-! ## Theorems on `streamKeys` -/

/-- Claim C4: for a keys file that opened, the keys `streamKeys` sends on the
key channel are exactly the lines the scanner yields, each passed through
`strings.TrimSpace`, in the same order and in the same number: no line is
dropped, doubled or filtered.  The key of a line is the line without its
leading and trailing white space, and a line of white space only is sent as
the empty key. -/
theorem streamKeys_keys_are_trimmed_lines (f : KeysFile) :
    keysSent (streamKeys (.ok f)) = f.lines.map TrimSpace ∧
    (keysSent (streamKeys (.ok f))).length = f.lines.length ∧
    (∀ (i : Nat) (line : String), f.lines[i]? = some line →
      ∃ key : String, (keysSent (streamKeys (.ok f)))[i]? = some key ∧
        (∃ pre post : List Char,
          line.data = pre ++ key.data ++ post ∧
          (∀ c ∈ pre, isSpace c = true) ∧ (∀ c ∈ post, isSpace c = true)) ∧
        (∀ c, key.data.head? = some c → isSpace c = false) ∧
        (∀ c, key.data.getLast? = some c → isSpace c = false)) ∧
    ∀ (i : Nat) (line : String), f.lines[i]? = some line →
      (∀ c ∈ line.data, isSpace c = true) →
      (keysSent (streamKeys (.ok f)))[i]? = some "" := by
  have hk : keysSent (streamKeys (.ok f)) = f.lines.map TrimSpace := by
    rw [streamKeys_ok_eq, keysSent_append, keysSent_sendKeys]
    simp [keysSent]
  refine ⟨hk, by simp [hk], ?_, ?_⟩
  · intro i line hi
    obtain ⟨pre, post, h1, h2, h3, h4, h5⟩ := trimChars_parts line.data
    refine ⟨TrimSpace line, ?_, ⟨pre, post, h1, h2, h3⟩, h4, h5⟩
    rw [hk, List.getElem?_map, hi]
    rfl
  · intro i line hi hsp
    rw [hk, List.getElem?_map, hi]
    simp [TrimSpace_of_all_space line hsp]

/-- Witness of C4: a file of three lines, the second one blank. -/
theorem streamKeys_keys_are_trimmed_lines_witness :
    keysSent (streamKeys (.ok { lines := [" a.txt", "  ", "b.txt "], readErr := none })) =
      ["a.txt", "", "b.txt"] ∧
    (keysSent (streamKeys
      (.ok { lines := [" a.txt", "  ", "b.txt "], readErr := none })))[1]? = some "" := by
  refine ⟨?_, ?_⟩
  · rw [(streamKeys_keys_are_trimmed_lines
      { lines := [" a.txt", "  ", "b.txt "], readErr := none }).1]
    decide
  · exact (streamKeys_keys_are_trimmed_lines
      { lines := [" a.txt", "  ", "b.txt "], readErr := none }).2.2.2 1 "  " rfl (by decide)

/-- Counterexample to C5 as stated: when the keys file cannot be opened,
`streamKeys` sends two messages on the log channel, not one. -/
theorem streamKeys_open_failure_not_one_log :
    ¬ ((keyLogsSent (streamKeys (.error "open keys.txt: no such file or directory"))).length
        = 1) := by
  rw [streamKeys_error_eq]
  decide

/-- Claim C5, amended: when the keys file cannot be opened, `streamKeys` sends
no key and exactly two messages on the log channel, both of severity Error:
the open failure, and then the read failure that the scanner reports on the
nil file handle. -/
theorem streamKeys_open_failure (e : String) :
    keysSent (streamKeys (.error e)) = [] ∧
    keyLogsSent (streamKeys (.error e)) =
      [{ msg := "unable to open keys file: " ++ e, level := Level.LevelError },
       { msg := "error reading keys file: " ++ ErrInvalid, level := Level.LevelError }] := by
  rw [streamKeys_error_eq]
  exact ⟨rfl, rfl⟩

/-- Claim C7: for a keys file that opened, `streamKeys` sends exactly one
message on the log channel, after the last key: of severity Debug when the scan
ended cleanly and of severity Error when a read failed.  The trimmed keys of
all lines read come before that message and no key comes after it. -/
theorem streamKeys_one_final_log (f : KeysFile) :
    ∃ m : LogMsg,
      streamKeys (.ok f) =
        f.lines.map (fun t => KeyEvent.sendKey (TrimSpace t)) ++
          [KeyEvent.sendLog m, KeyEvent.closeFh, KeyEvent.closeKeys] ∧
      keyLogsSent (streamKeys (.ok f)) = [m] ∧
      (f.readErr = none → m.level = Level.LevelDebug) ∧
      (f.readErr ≠ none → m.level = Level.LevelError) := by
  refine ⟨_, streamKeys_ok_eq f, ?_, ?_, ?_⟩
  · rw [streamKeys_ok_eq, keyLogsSent_append, keyLogsSent_sendKeys]
    rfl
  · intro h
    simp [h]
  · intro h
    cases hf : f.readErr with
    | none => exact absurd hf h
    | some e => simp

/-- Witness of C7: two lines are read and then the read fails. -/
theorem streamKeys_one_final_log_witness :
    ∃ m : LogMsg,
      streamKeys (.ok { lines := ["a.txt ", "b.txt"], readErr := some "unexpected EOF" }) =
        [KeyEvent.sendKey "a.txt", KeyEvent.sendKey "b.txt",
         KeyEvent.sendLog m, KeyEvent.closeFh, KeyEvent.closeKeys] ∧
      m.level = Level.LevelError := by
  obtain ⟨m, htr, _, _, herr⟩ := streamKeys_one_final_log
    { lines := ["a.txt ", "b.txt"], readErr := some "unexpected EOF" }
  have h1 : TrimSpace "a.txt " = "a.txt" := by decide
  have h2 : TrimSpace "b.txt" = "b.txt" := by decide
  refine ⟨m, ?_, herr (by simp)⟩
  rw [htr]
  simp only [List.map_cons, List.map_nil, List.cons_append, List.nil_append, h1, h2]

/-- Claim C10: on every exit path of `streamKeys` (the file did not open, a
read failed, the scan ended cleanly) the key channel is closed exactly once and
the close is the last action of the call, so every send of a key or of a log
message comes before it. -/
theorem streamKeys_closes_keys_last (osOpen : Except String KeysFile) :
    ∃ pre : List KeyEvent,
      streamKeys osOpen = pre ++ [KeyEvent.closeKeys] ∧
      KeyEvent.closeKeys ∉ pre ∧
      (streamKeys osOpen).count KeyEvent.closeKeys = 1 ∧
      keysSent pre = keysSent (streamKeys osOpen) ∧
      keyLogsSent pre = keyLogsSent (streamKeys osOpen) := by
  cases osOpen with
  | error e =>
      refine ⟨[KeyEvent.sendLog
          { msg := "unable to open keys file: " ++ e, level := Level.LevelError },
        KeyEvent.sendLog
          { msg := "error reading keys file: " ++ ErrInvalid, level := Level.LevelError },
        KeyEvent.closeFh], ?_, ?_, ?_, ?_, ?_⟩
      · rw [streamKeys_error_eq]; rfl
      · simp
      · rw [streamKeys_error_eq]; simp
      · rw [streamKeys_error_eq]; rfl
      · rw [streamKeys_error_eq]; rfl
  | ok f =>
      have htr := streamKeys_ok_eq f
      refine ⟨f.lines.map (fun t => KeyEvent.sendKey (TrimSpace t)) ++
        [KeyEvent.sendLog
            (match f.readErr with
              | some e => { msg := "error reading keys file: " ++ e, level := Level.LevelError }
              | none => { msg := "done reading keys file", level := Level.LevelDebug }),
          KeyEvent.closeFh], ?_, ?_, ?_, ?_, ?_⟩
      · rw [htr]; simp
      · simp
      · rw [htr]; simp [List.count_eq_zero]
      · rw [htr]; simp [keysSent_append, keysSent]
      · rw [htr]; simp [keyLogsSent_append, keyLogsSent]

/-! ## Lemmas on `fetchAndHash` -/

theorem fetchAndHash_eq (sha256Hash : List Nat → List Nat)
    (GetObjectBytes : Nat → String → Except String (List Nat))
    (n : Nat) (keys : List String) (tr : List WorkerEvent) :
    fetchAndHash sha256Hash GetObjectBytes n keys tr =
      tr ++ (keys.enumFrom n).map (effectOf sha256Hash GetObjectBytes) := by
  induction keys generalizing n tr with
  | nil => simp [fetchAndHash]
  | cons key rest ih => simp [fetchAndHash, ih, effectOf]

theorem effects_split (evs : List WorkerEvent) :
    (outputsSent evs).length + (workerLogsSent evs).length = evs.length := by
  induction evs with
  | nil => rfl
  | cons ev rest ih =>
      cases ev with
      | sendLog m =>
          have h1 : outputsSent (WorkerEvent.sendLog m :: rest) = outputsSent rest := rfl
          have h2 : workerLogsSent (WorkerEvent.sendLog m :: rest) =
              m :: workerLogsSent rest := rfl
          rw [h1, h2]
          simp only [List.length_cons]
          omega
      | sendOutput o =>
          have h1 : outputsSent (WorkerEvent.sendOutput o :: rest) =
              o :: outputsSent rest := rfl
          have h2 : workerLogsSent (WorkerEvent.sendOutput o :: rest) =
              workerLogsSent rest := rfl
          rw [h1, h2]
          simp only [List.length_cons]
          omega

theorem fetchErrorMsg_contains_key (key e : String) :
    key.data <:+: (fetchErrorMsg key e).data := by
  refine ⟨("unable to fetch s3 object " ++ String.singleton quoteChar).data,
    (String.singleton quoteChar ++ ", err: " ++ e).data, ?_⟩
  simp [fetchErrorMsg, String.data_append]

theorem workerLogs_level (sha256Hash : List Nat → List Nat)
    (GetObjectBytes : Nat → String → Except String (List Nat)) (ps : List (Nat × String)) :
    ∀ m ∈ workerLogsSent (ps.map (effectOf sha256Hash GetObjectBytes)),
      m.level = Level.LevelError := by
  induction ps with
  | nil => intro m hm; simp [workerLogsSent] at hm
  | cons p rest ih =>
      intro m hm
      simp only [List.map_cons, workerLogsSent, List.filterMap_cons] at hm
      cases hres : GetObjectBytes p.1 p.2 with
      | error e =>
          simp only [effectOf, fetchAndHashStep, hres, List.mem_cons] at hm
          rcases hm with hm | hm
          · rw [hm]
          · exact ih m hm
      | ok b =>
          simp only [effectOf, fetchAndHashStep, hres] at hm
          exact ih m hm

theorem outputs_nil_of_all_fail (sha256Hash : List Nat → List Nat)
    (GetObjectBytes : Nat → String → Except String (List Nat)) (ps : List (Nat × String))
    (h : ∀ p ∈ ps, ∃ e, GetObjectBytes p.1 p.2 = .error e) :
    outputsSent (ps.map (effectOf sha256Hash GetObjectBytes)) = [] := by
  induction ps with
  | nil => rfl
  | cons p rest ih =>
      obtain ⟨e, he⟩ := h p (List.mem_cons_self p rest)
      have hr := ih (fun q hq => h q (List.mem_cons_of_mem p hq))
      simp only [List.map_cons, outputsSent, List.filterMap_cons, effectOf, fetchAndHashStep, he]
      exact hr

/-! ## Theorems on `fetchAndHash` -/

/-- Claim C3: a worker performs exactly one effect per key, in key order.  If
the fetch of the `i`-th key fails, the effect is one message of severity Error
whose text contains the key; if it returns bytes `b`, the effect is one result
with that key, the digest of `b` and the size `len(b)`.  Results plus Error
messages number as many as the keys, every message is of severity Error, and
when every fetch fails there is no result and one message per key. -/
theorem fetchAndHash_one_effect_per_key (sha256Hash : List Nat → List Nat)
    (GetObjectBytes : Nat → String → Except String (List Nat)) (keys : List String) :
    (fetchAndHash sha256Hash GetObjectBytes 0 keys []).length = keys.length ∧
    (∀ (i : Nat) (key : String), keys[i]? = some key →
      (∀ e, GetObjectBytes i key = .error e →
        ∃ m : LogMsg,
          (fetchAndHash sha256Hash GetObjectBytes 0 keys [])[i]? =
            some (WorkerEvent.sendLog m) ∧
          m.level = Level.LevelError ∧ key.data <:+: m.msg.data) ∧
      (∀ b, GetObjectBytes i key = .ok b →
        (fetchAndHash sha256Hash GetObjectBytes 0 keys [])[i]? =
          some (WorkerEvent.sendOutput
            { key := key, hash := sha256Hash b, byteLen := b.length }))) ∧
    (outputsSent (fetchAndHash sha256Hash GetObjectBytes 0 keys [])).length +
      (workerLogsSent (fetchAndHash sha256Hash GetObjectBytes 0 keys [])).length =
        keys.length ∧
    (∀ m ∈ workerLogsSent (fetchAndHash sha256Hash GetObjectBytes 0 keys []),
      m.level = Level.LevelError) ∧
    ((∀ (i : Nat) (key : String), keys[i]? = some key →
        ∃ e, GetObjectBytes i key = .error e) →
      outputsSent (fetchAndHash sha256Hash GetObjectBytes 0 keys []) = [] ∧
      (workerLogsSent (fetchAndHash sha256Hash GetObjectBytes 0 keys [])).length =
        keys.length) := by
  have htr := fetchAndHash_eq sha256Hash GetObjectBytes 0 keys []
  simp only [List.nil_append] at htr
  have hlen : (fetchAndHash sha256Hash GetObjectBytes 0 keys []).length = keys.length := by
    rw [htr]; simp
  have hsplit := effects_split (fetchAndHash sha256Hash GetObjectBytes 0 keys [])
  rw [hlen] at hsplit
  have hget : ∀ (i : Nat) (key : String), keys[i]? = some key →
      (fetchAndHash sha256Hash GetObjectBytes 0 keys [])[i]? =
        some (fetchAndHashStep sha256Hash key (GetObjectBytes i key)) := by
    intro i key hi
    rw [htr, List.getElem?_map, List.getElem?_enumFrom, hi]
    simp [effectOf]
  refine ⟨hlen, ?_, hsplit, ?_, ?_⟩
  · intro i key hi
    refine ⟨?_, ?_⟩
    · intro e he
      refine ⟨{ msg := fetchErrorMsg key e, level := Level.LevelError }, ?_, rfl,
        fetchErrorMsg_contains_key key e⟩
      rw [hget i key hi, he]
      rfl
    · intro b hb
      rw [hget i key hi, hb]
      rfl
  · rw [htr]
    exact workerLogs_level sha256Hash GetObjectBytes _
  · intro hall
    have hnil : outputsSent (fetchAndHash sha256Hash GetObjectBytes 0 keys []) = [] := by
      rw [htr]
      apply outputs_nil_of_all_fail
      intro p hp
      obtain ⟨i, hi⟩ := List.getElem?_of_mem hp
      rw [List.getElem?_enumFrom] at hi
      cases hk : keys[i]? with
      | none => simp [hk] at hi
      | some key =>
          simp only [hk, Option.map_some', Option.some.injEq] at hi
          subst hi
          simpa using hall i key hk
    refine ⟨hnil, ?_⟩
    rw [hnil] at hsplit
    simpa using hsplit

/-- Witness of C3: two keys, the first fetched and the second refused. -/
theorem fetchAndHash_one_effect_per_key_witness :
    fetchAndHash (fun b => b.reverse)
        (fun n _ => if n = 0 then .ok [104, 105] else .error "NoSuchKey")
        0 ["a.txt", "b.txt"] [] =
      [WorkerEvent.sendOutput { key := "a.txt", hash := [105, 104], byteLen := 2 },
       WorkerEvent.sendLog
         { msg := fetchErrorMsg "b.txt" "NoSuchKey", level := Level.LevelError }] ∧
    (fetchAndHash (fun b => b.reverse)
        (fun n _ => if n = 0 then .ok [104, 105] else .error "NoSuchKey")
        0 ["a.txt", "b.txt"] [])[0]? =
      some (WorkerEvent.sendOutput { key := "a.txt", hash := [105, 104], byteLen := 2 }) := by
  refine ⟨by decide, ?_⟩
  exact ((fetchAndHash_one_effect_per_key (fun b => b.reverse)
    (fun n _ => if n = 0 then .ok [104, 105] else .error "NoSuchKey")
    ["a.txt", "b.txt"]).2.1 0 "a.txt" rfl).2 [104, 105] rfl

/-! ## Lemmas on `writeOutputFile` -/

theorem writtenRecords_nil (outFh : Option OutFile) (n : Nat) :
    writtenRecords outFh n [] = [] := rfl

theorem writtenRecords_cons_ok (outFh : Option OutFile) (n : Nat) (o : Output)
    (rest : List Output) (h : WriteString outFh n (formatOutput o) = none) :
    writtenRecords outFh n (o :: rest) = o :: writtenRecords outFh (n + 1) rest := by
  simp [writtenRecords, List.filter_cons, h]

theorem writtenRecords_cons_err (outFh : Option OutFile) (n : Nat) (o : Output)
    (rest : List Output) (e : String) (h : WriteString outFh n (formatOutput o) = some e) :
    writtenRecords outFh n (o :: rest) = writtenRecords outFh (n + 1) rest := by
  simp [writtenRecords, List.filter_cons, h]

theorem writtenRecords_nil_handle (n : Nat) (outs : List Output) :
    writtenRecords none n outs = [] := by
  induction outs generalizing n with
  | nil => rfl
  | cons o rest ih => rw [writtenRecords_cons_err none n o rest ErrInvalid rfl, ih]

theorem writeLoop_count (w : Nat) (outFh : Option OutFile) (outs : List Output)
    (st : WriterState) :
    (writeLoop w outFh outs st).countHashesWritten % 2 ^ w =
      (st.countHashesWritten + (writtenRecords outFh st.calls outs).length) % 2 ^ w := by
  induction outs generalizing st with
  | nil => simp [writeLoop, writtenRecords_nil]
  | cons o rest ih =>
      cases hres : WriteString outFh st.calls (formatOutput o) with
      | some e =>
          simp only [writeLoop, writeStep, hres]
          rw [ih, writtenRecords_cons_err outFh st.calls o rest e hres]
      | none =>
          simp only [writeLoop, writeStep, hres]
          rw [ih, writtenRecords_cons_ok outFh st.calls o rest hres]
          simp only [List.length_cons]
          rw [Nat.add_mod, Nat.mod_mod, ← Nat.add_mod]
          congr 1
          omega

theorem writeLoop_total (w : Nat) (outFh : Option OutFile) (outs : List Output)
    (st : WriterState) :
    (writeLoop w outFh outs st).totalBytesHashed % 2 ^ w =
      (st.totalBytesHashed +
        ((writtenRecords outFh st.calls outs).map Output.byteLen).sum) % 2 ^ w := by
  induction outs generalizing st with
  | nil => simp [writeLoop, writtenRecords_nil]
  | cons o rest ih =>
      cases hres : WriteString outFh st.calls (formatOutput o) with
      | some e =>
          simp only [writeLoop, writeStep, hres]
          rw [ih, writtenRecords_cons_err outFh st.calls o rest e hres]
      | none =>
          simp only [writeLoop, writeStep, hres]
          rw [ih, writtenRecords_cons_ok outFh st.calls o rest hres]
          simp only [List.map_cons, List.sum_cons]
          rw [Nat.add_mod, Nat.mod_mod, ← Nat.add_mod]
          congr 1
          omega

theorem writeLoop_bounds (w : Nat) (outFh : Option OutFile) (outs : List Output)
    (st : WriterState)
    (hc : st.countHashesWritten < 2 ^ w) (ht : st.totalBytesHashed < 2 ^ w) :
    (writeLoop w outFh outs st).countHashesWritten < 2 ^ w ∧
    (writeLoop w outFh outs st).totalBytesHashed < 2 ^ w := by
  induction outs generalizing st with
  | nil => exact ⟨hc, ht⟩
  | cons o rest ih =>
      have hpos : 0 < 2 ^ w := Nat.two_pow_pos w
      cases hres : WriteString outFh st.calls (formatOutput o) with
      | some e =>
          simp only [writeLoop, writeStep, hres]
          exact ih _ hc ht
      | none =>
          simp only [writeLoop, writeStep, hres]
          exact ih _ (Nat.mod_lt _ hpos) (Nat.mod_lt _ hpos)

theorem writerLogsSent_append (a b : List WriterEvent) :
    writerLogsSent (a ++ b) = writerLogsSent a ++ writerLogsSent b := by
  simp [writerLogsSent, List.filterMap_append]

theorem statsSent_append (a b : List WriterEvent) :
    statsSent (a ++ b) = statsSent a ++ statsSent b := by
  simp [statsSent, List.filterMap_append]

theorem writeCalls_append (a b : List WriterEvent) :
    writeCalls (a ++ b) = writeCalls a ++ writeCalls b := by
  simp [writeCalls, List.filterMap_append]

theorem writeLoop_statsSent (w : Nat) (outFh : Option OutFile) (outs : List Output)
    (st : WriterState) :
    statsSent (writeLoop w outFh outs st).trace = statsSent st.trace := by
  induction outs generalizing st with
  | nil => rfl
  | cons o rest ih =>
      cases hres : WriteString outFh st.calls (formatOutput o) with
      | some e =>
          simp only [writeLoop, writeStep, hres]
          rw [ih, statsSent_append]
          simp [statsSent]
      | none =>
          simp only [writeLoop, writeStep, hres]
          rw [ih, statsSent_append]
          simp [statsSent]

theorem writeLoop_writeCalls (w : Nat) (outFh : Option OutFile) (outs : List Output)
    (st : WriterState) :
    writeCalls (writeLoop w outFh outs st).trace =
      writeCalls st.trace ++
        (outs.enumFrom st.calls).map
          (fun p => (formatOutput p.2, WriteString outFh p.1 (formatOutput p.2))) := by
  induction outs generalizing st with
  | nil => simp [writeLoop]
  | cons o rest ih =>
      cases hres : WriteString outFh st.calls (formatOutput o) with
      | some e =>
          simp only [writeLoop, writeStep, hres]
          rw [ih, writeCalls_append]
          simp [writeCalls, hres]
      | none =>
          simp only [writeLoop, writeStep, hres]
          rw [ih, writeCalls_append]
          simp [writeCalls, hres]

theorem writeLoop_logs (w : Nat) (outFh : Option OutFile) (outs : List Output)
    (st : WriterState) :
    writerLogsSent (writeLoop w outFh outs st).trace =
      writerLogsSent st.trace ++
        (outs.enumFrom st.calls).filterMap
          (fun p => (WriteString outFh p.1 (formatOutput p.2)).map writeErrorMsg) := by
  induction outs generalizing st with
  | nil => simp [writeLoop]
  | cons o rest ih =>
      cases hres : WriteString outFh st.calls (formatOutput o) with
      | some e =>
          simp only [writeLoop, writeStep, hres]
          rw [ih, writerLogsSent_append]
          simp [writerLogsSent, hres, writeErrorMsg]
      | none =>
          simp only [writeLoop, writeStep, hres]
          rw [ih, writerLogsSent_append]
          simp [writerLogsSent, hres]

theorem writeLoop_from_zero (w : Nat) (outFh : Option OutFile) (outs : List Output)
    (tr0 : List WriterEvent) :
    (writeLoop w outFh outs
        { calls := 0, countHashesWritten := 0, totalBytesHashed := 0,
          trace := tr0 }).countHashesWritten =
      (writtenRecords outFh 0 outs).length % 2 ^ w ∧
    (writeLoop w outFh outs
        { calls := 0, countHashesWritten := 0, totalBytesHashed := 0,
          trace := tr0 }).totalBytesHashed =
      ((writtenRecords outFh 0 outs).map Output.byteLen).sum % 2 ^ w := by
  have hpos : 0 < 2 ^ w := Nat.two_pow_pos w
  have hb := writeLoop_bounds w outFh outs
    { calls := 0, countHashesWritten := 0, totalBytesHashed := 0, trace := tr0 } hpos hpos
  have hc := writeLoop_count w outFh outs
    { calls := 0, countHashesWritten := 0, totalBytesHashed := 0, trace := tr0 }
  have ht := writeLoop_total w outFh outs
    { calls := 0, countHashesWritten := 0, totalBytesHashed := 0, trace := tr0 }
  rw [Nat.mod_eq_of_lt hb.1] at hc
  rw [Nat.mod_eq_of_lt hb.2] at ht
  simp only [Nat.zero_add] at hc ht
  exact ⟨hc, ht⟩

theorem writeOutputFile_statsSent (w : Nat) (osOpenFile : Except String OutFile)
    (chanOutput : List Output) :
    statsSent (writeOutputFile w osOpenFile chanOutput) =
      [{ countHashesWritten :=
           (writtenRecords (handleOf osOpenFile) 0 chanOutput).length % 2 ^ w,
         totalBytesHashed :=
           ((writtenRecords (handleOf osOpenFile) 0 chanOutput).map Output.byteLen).sum
             % 2 ^ w }] := by
  cases osOpenFile with
  | error e =>
      simp only [writeOutputFile, writerStart, handleOf]
      rw [statsSent_append, writeLoop_statsSent,
        (writeLoop_from_zero w none chanOutput _).1, (writeLoop_from_zero w none chanOutput _).2]
      rfl
  | ok f =>
      simp only [writeOutputFile, writerStart, handleOf]
      rw [statsSent_append, writeLoop_statsSent,
        (writeLoop_from_zero w (some f) chanOutput _).1,
        (writeLoop_from_zero w (some f) chanOutput _).2]
      rfl

theorem writeOutputFile_writeCalls (w : Nat) (osOpenFile : Except String OutFile)
    (chanOutput : List Output) :
    writeCalls (writeOutputFile w osOpenFile chanOutput) =
      chanOutput.enum.map
        (fun p => (formatOutput p.2,
          WriteString (handleOf osOpenFile) p.1 (formatOutput p.2))) := by
  cases osOpenFile with
  | error e =>
      simp only [writeOutputFile, writerStart, handleOf]
      rw [writeCalls_append, writeLoop_writeCalls]
      simp [writeCalls, List.enum]
  | ok f =>
      simp only [writeOutputFile, writerStart, handleOf]
      rw [writeCalls_append, writeLoop_writeCalls]
      simp [writeCalls, List.enum]

theorem writeOutputFile_logs (w : Nat) (osOpenFile : Except String OutFile)
    (chanOutput : List Output) :
    writerLogsSent (writeOutputFile w osOpenFile chanOutput) =
      (match osOpenFile with
        | .error e =>
            [{ msg := "unable to open output file: " ++ e, level := Level.LevelError }]
        | .ok _ => []) ++
      chanOutput.enum.filterMap
        (fun p => (WriteString (handleOf osOpenFile) p.1 (formatOutput p.2)).map
          writeErrorMsg) := by
  cases osOpenFile with
  | error e =>
      simp only [writeOutputFile, writerStart, handleOf]
      rw [writerLogsSent_append, writeLoop_logs]
      simp [writerLogsSent, List.enum]
  | ok f =>
      simp only [writeOutputFile, writerStart, handleOf]
      rw [writerLogsSent_append, writeLoop_logs]
      simp [writerLogsSent, List.enum]

theorem nil_handle_logs (n : Nat) (outs : List Output) :
    (outs.enumFrom n).filterMap
        (fun p => (WriteString none p.1 (formatOutput p.2)).map writeErrorMsg) =
      List.replicate outs.length (writeErrorMsg ErrInvalid) := by
  induction outs generalizing n with
  | nil => rfl
  | cons o rest ih =>
      simp only [List.enumFrom_cons, List.filterMap_cons, WriteString, Option.map_some',
        List.length_cons, List.replicate_succ]
      rw [← ih (n + 1)]
      rfl

theorem nil_handle_calls (n : Nat) (outs : List Output) :
    (outs.enumFrom n).map
        (fun p => (formatOutput p.2, WriteString none p.1 (formatOutput p.2))) =
      outs.map (fun o => (formatOutput o, some ErrInvalid)) := by
  induction outs generalizing n with
  | nil => rfl
  | cons o rest ih =>
      simp only [List.enumFrom_cons, List.map_cons]
      rw [ih (n + 1)]
      rfl

theorem hexBytes_length (bs : List Nat) : (hexBytes bs).length = 2 * bs.length := by
  induction bs with
  | nil => rfl
  | cons b rest ih =>
      simp only [hexBytes, hexByte, List.length_append, List.length_cons, List.length_nil, ih]
      omega

theorem hexDigit_eq_alphabet : ∀ d < 16, hexDigit d = hexAlphabet.getD d '0' := by
  decide

theorem hexDigit_mem_alphabet (d : Nat) (h : d < 16) : hexDigit d ∈ hexAlphabet := by
  have hall : ∀ d < 16, hexDigit d ∈ hexAlphabet := by decide
  exact hall d h

theorem hexBytes_mem_alphabet (bs : List Nat) : ∀ c ∈ hexBytes bs, c ∈ hexAlphabet := by
  induction bs with
  | nil => intro c hc; simp [hexBytes] at hc
  | cons b rest ih =>
      intro c hc
      simp only [hexBytes, hexByte, List.mem_append, List.mem_cons, List.mem_singleton,
        List.not_mem_nil, or_false] at hc
      rcases hc with (hc | hc) | hc
      · rw [hc]; exact hexDigit_mem_alphabet _ (Nat.mod_lt _ (by decide))
      · rw [hc]; exact hexDigit_mem_alphabet _ (Nat.mod_lt _ (by decide))
      · exact ih c hc

theorem hexBytes_getElem (bs : List Nat) (i b : Nat) (h : bs[i]? = some b) :
    (hexBytes bs)[2 * i]? = some (hexAlphabet.getD (b / 16 % 16) '0') ∧
    (hexBytes bs)[2 * i + 1]? = some (hexAlphabet.getD (b % 16) '0') := by
  induction bs generalizing i with
  | nil => simp at h
  | cons a rest ih =>
      cases i with
      | zero =>
          simp only [List.getElem?_cons_zero, Option.some.injEq] at h
          subst h
          have h1 := hexDigit_eq_alphabet (a / 16 % 16) (Nat.mod_lt _ (by decide))
          have h2 := hexDigit_eq_alphabet (a % 16) (Nat.mod_lt _ (by decide))
          simp [hexBytes, hexByte, h1, h2]
      | succ j =>
          simp only [List.getElem?_cons_succ] at h
          obtain ⟨ih1, ih2⟩ := ih j h
          have e1 : 2 * (j + 1) = 2 * j + 1 + 1 := by ring
          rw [e1]
          simp only [hexBytes, hexByte, List.cons_append, List.nil_append,
            List.getElem?_cons_succ]
          exact ⟨ih1, ih2⟩

/-! ## Theorems on `writeOutputFile` -/

/-- Counterexample to C1 as stated: the counters are of Go type `uint` and
wrap.  With a 64-bit `uint`, three records of `2^63 - 1` bytes each, all
written, leave `totalBytesHashed` at `2^63 - 3`, not at the sum of the sizes;
with a 32-bit `uint`, five records of one GiB each leave it at one GiB. -/
theorem writeOutputFile_total_wraps :
    writtenRecords (some { writeErr := fun _ _ => none }) 0
        (List.replicate 3 { key := "k", hash := [], byteLen := 9223372036854775807 }) =
      List.replicate 3 { key := "k", hash := [], byteLen := 9223372036854775807 } ∧
    statsSent (writeOutputFile 64 (.ok { writeErr := fun _ _ => none })
        (List.replicate 3 { key := "k", hash := [], byteLen := 9223372036854775807 })) =
      [{ countHashesWritten := 3, totalBytesHashed := 9223372036854775805 }] ∧
    ¬ (statsSent (writeOutputFile 64 (.ok { writeErr := fun _ _ => none })
        (List.replicate 3 { key := "k", hash := [], byteLen := 9223372036854775807 })) =
      [{ countHashesWritten := 3, totalBytesHashed := 3 * 9223372036854775807 }]) ∧
    ¬ (statsSent (writeOutputFile 32 (.ok { writeErr := fun _ _ => none })
        (List.replicate 5 { key := "k", hash := [], byteLen := 1073741824 })) =
      [{ countHashesWritten := 5, totalBytesHashed := 5 * 1073741824 }]) := by
  refine ⟨by decide, ?_, ?_, ?_⟩
  · rw [writeOutputFile_statsSent]; decide
  · rw [writeOutputFile_statsSent]; decide
  · rw [writeOutputFile_statsSent]; decide

/-- Claim C1, amended: the statistics `writeOutputFile` hands off, once, have
`countHashesWritten` equal to the number of records whose write succeeded and
`totalBytesHashed` equal to the sum of `byteLen` over exactly those records,
both reduced modulo `2 ^ w`, `w` the width of Go's `uint`; a record whose write
failed changes neither counter.  When the number and the sum are below
`2 ^ w` the counters are that number and that sum. -/
theorem writeOutputFile_stats (w : Nat) (osOpenFile : Except String OutFile)
    (chanOutput : List Output) :
    statsSent (writeOutputFile w osOpenFile chanOutput) =
      [{ countHashesWritten :=
           (writtenRecords (handleOf osOpenFile) 0 chanOutput).length % 2 ^ w,
         totalBytesHashed :=
           ((writtenRecords (handleOf osOpenFile) 0 chanOutput).map Output.byteLen).sum
             % 2 ^ w }] ∧
    ((writtenRecords (handleOf osOpenFile) 0 chanOutput).length < 2 ^ w →
      ((writtenRecords (handleOf osOpenFile) 0 chanOutput).map Output.byteLen).sum < 2 ^ w →
      statsSent (writeOutputFile w osOpenFile chanOutput) =
        [{ countHashesWritten := (writtenRecords (handleOf osOpenFile) 0 chanOutput).length,
           totalBytesHashed :=
             ((writtenRecords (handleOf osOpenFile) 0 chanOutput).map Output.byteLen).sum }]) := by
  refine ⟨writeOutputFile_statsSent w osOpenFile chanOutput, ?_⟩
  intro h1 h2
  rw [writeOutputFile_statsSent, Nat.mod_eq_of_lt h1, Nat.mod_eq_of_lt h2]

/-- Witness of C1: records of 5, 7 and 6 bytes, the second write failing, give
2 hashes written and 11 bytes. -/
theorem writeOutputFile_stats_witness :
    statsSent (writeOutputFile 64
        (.ok { writeErr := fun n _ => if n = 1 then some "disk full" else none })
        [{ key := "a.txt", hash := [1], byteLen := 5 },
         { key := "c.txt", hash := [3], byteLen := 7 },
         { key := "b.txt", hash := [2], byteLen := 6 }]) =
      [{ countHashesWritten := 2, totalBytesHashed := 11 }] := by
  have h := (writeOutputFile_stats 64
    (.ok { writeErr := fun n _ => if n = 1 then some "disk full" else none })
    [{ key := "a.txt", hash := [1], byteLen := 5 },
     { key := "c.txt", hash := [3], byteLen := 7 },
     { key := "b.txt", hash := [2], byteLen := 6 }]).2 (by decide) (by decide)
  rw [h]
  decide

/-- Counterexample to C2 as stated: the line written for a record has two
backslash characters before the letter x, not one. -/
theorem formatOutput_not_single_backslash :
    (formatOutput { key := "a.txt", hash := [44, 242], byteLen := 5 }).data =
      "a.txt".data ++ [',', backslash, backslash, 'x'] ++ "2cf2".data ++ [newline] ∧
    ¬ ((formatOutput { key := "a.txt", hash := [44, 242], byteLen := 5 }).data =
      "a.txt".data ++ [',', backslash, 'x'] ++ "2cf2".data ++ [newline]) := by
  decide

/-- Claim C2, amended: for every record the text `writeOutputFile` passes to
`WriteString`, in one call per record and in order of receipt, is the key, a
comma, two backslash characters, the letter x, the digest in lowercase
hexadecimal (two characters per byte, 64 for a digest of 32 bytes) and one
newline, and nothing else. -/
theorem writeOutputFile_line_format (w : Nat) (osOpenFile : Except String OutFile)
    (chanOutput : List Output) :
    (writeCalls (writeOutputFile w osOpenFile chanOutput)).map Prod.fst =
      chanOutput.map formatOutput ∧
    ∀ o : Output,
      (formatOutput o).data =
        o.key.data ++ [',', backslash, backslash, 'x'] ++ hexBytes o.hash ++ [newline] ∧
      (hexBytes o.hash).length = 2 * o.hash.length ∧
      (∀ c ∈ hexBytes o.hash, c ∈ hexAlphabet) ∧
      (∀ (i b : Nat), o.hash[i]? = some b →
        (hexBytes o.hash)[2 * i]? = some (hexAlphabet.getD (b / 16 % 16) '0') ∧
        (hexBytes o.hash)[2 * i + 1]? = some (hexAlphabet.getD (b % 16) '0')) ∧
      (o.hash.length = 32 → (hexBytes o.hash).length = 64) := by
  refine ⟨?_, ?_⟩
  · rw [writeOutputFile_writeCalls]
    simp only [List.map_map]
    have hfun : (Prod.fst ∘ fun (p : Nat × Output) =>
        (formatOutput p.2, WriteString (handleOf osOpenFile) p.1 (formatOutput p.2))) =
        formatOutput ∘ Prod.snd := by
      funext p; rfl
    rw [hfun, ← List.map_map, List.enum, List.enumFrom_map_snd]
  · intro o
    refine ⟨rfl, hexBytes_length o.hash, hexBytes_mem_alphabet o.hash, ?_, ?_⟩
    · intro i b hi
      exact hexBytes_getElem o.hash i b hi
    · intro h32
      rw [hexBytes_length, h32]

/-- Witness of C2: the line of `a.txt` holding the bytes `hello`, whose
SHA-256 digest has 32 bytes. -/
theorem writeOutputFile_line_format_witness :
    (writeCalls (writeOutputFile 64 (.ok { writeErr := fun _ _ => none })
        [helloRecord])).map Prod.fst =
      [String.mk ("a.txt".data ++ [',', backslash, backslash, 'x'] ++
        "2cf24dba5fb0a30e26e83b2ac5b9e29e1b161e5c1fa7425e73043362938b9824".data ++
        [newline])] ∧
    (hexBytes helloRecord.hash).length = 64 := by
  have h := writeOutputFile_line_format 64 (.ok { writeErr := fun _ _ => none })
    [helloRecord]
  refine ⟨?_, (h.2 helloRecord).2.2.2.2 (by decide)⟩
  rw [h.1]
  decide

/-- Counterexample to C6 as stated: when the output file cannot be opened the
write attempts are not discarded silently; one record already gives a second
message on the log channel. -/
theorem writeOutputFile_open_failure_not_silent :
    ¬ (writerLogsSent (writeOutputFile 64 (.error "permission denied")
        [{ key := "a.txt", hash := [44, 242], byteLen := 5 }]) =
      [{ msg := "unable to open output file: permission denied",
         level := Level.LevelError }]) := by
  rw [writeOutputFile_logs]
  decide

/-- Claim C6, amended: when the output file cannot be opened, `writeOutputFile`
logs the open failure as one message of severity Error, still takes every
result from the result channel and calls `WriteString` for it, each call
fails with `ErrInvalid` on the nil handle and is logged as one more message of
severity Error, and the statistics handed off are 0 hashes and 0 bytes. -/
theorem writeOutputFile_open_failure (w : Nat) (e : String) (chanOutput : List Output) :
    writerLogsSent (writeOutputFile w (.error e) chanOutput) =
      { msg := "unable to open output file: " ++ e, level := Level.LevelError } ::
        List.replicate chanOutput.length
          { msg := "error writing to output file: " ++ ErrInvalid,
            level := Level.LevelError } ∧
    writeCalls (writeOutputFile w (.error e) chanOutput) =
      chanOutput.map (fun o => (formatOutput o, some ErrInvalid)) ∧
    statsSent (writeOutputFile w (.error e) chanOutput) =
      [{ countHashesWritten := 0, totalBytesHashed := 0 }] := by
  refine ⟨?_, ?_, ?_⟩
  · rw [writeOutputFile_logs]
    simp only [handleOf, List.enum, nil_handle_logs]
    rfl
  · rw [writeOutputFile_writeCalls]
    simp only [handleOf, List.enum, nil_handle_calls]
  · rw [writeOutputFile_statsSent]
    simp [handleOf, writtenRecords_nil_handle]

/-! ## Lemmas on the run -/

theorem orderInv_init (env : Env) : OrderInv (initState env) := by
  cases h : env.osOpenFile <;> constructor <;>
    simp [initState, MainPc.idx, shutdownOrder, h]

theorem logSend_fields (s : RunState) (m : LogMsg) :
    (logSend s m).mainTrace = s.mainTrace ∧ (logSend s m).mainPc = s.mainPc ∧
    (logSend s m).outputClosed = s.outputClosed ∧ (logSend s m).logClosed = s.logClosed ∧
    (logSend s m).workers = s.workers ∧ (logSend s m).writerPc = s.writerPc ∧
    (logSend s m).writer = s.writer ∧ (logSend s m).statsBuf = s.statsBuf ∧
    (logSend s m).stats = s.stats ∧ (logSend s m).sinkExited = s.sinkExited ∧
    (logSend s m).src = s.src ∧ (logSend s m).keysBuf = s.keysBuf ∧
    (logSend s m).keysClosed = s.keysClosed := by
  unfold logSend
  split <;> simp

theorem logSend_fatal (s : RunState) (m : LogMsg) : (logSend s m).fatal = s.fatal := by
  unfold logSend
  split <;> rfl

theorem orderInv_of_fields (s t : RunState) (h : OrderInv s)
    (h1 : t.mainTrace = s.mainTrace) (h2 : t.mainPc = s.mainPc)
    (h3 : t.outputClosed = s.outputClosed) (h4 : t.logClosed = s.logClosed)
    (h5 : t.workers = s.workers) (h6 : t.writerPc = s.writerPc)
    (h7 : statsOf t.writer = statsOf s.writer) (h8 : t.statsBuf = s.statsBuf)
    (h9 : t.stats = s.stats) (h10 : t.sinkExited = s.sinkExited)
    (h11 : t.fatal = s.fatal) : OrderInv t := by
  constructor
  · rw [h1, h2]; exact h.trace
  · rw [h3, h2]; exact h.outputClosed
  · rw [h4, h2]; exact h.logClosed
  · rw [h5, h2]; exact h.workers
  · rw [h6, h2]; exact h.writer
  · rw [h6, h3]; exact h.writerOut
  · rw [h8, h6, h7, h2]; exact h.statsBuf
  · rw [h9, h7, h2]; exact h.stats
  · rw [h10, h2]; exact h.sink
  · rw [h10, h4]; exact h.sinkLog
  · rw [h11, h2]; exact h.fatal

theorem orderInv_logSend (s : RunState) (m : LogMsg) (h : OrderInv s) :
    OrderInv (logSend s m) := by
  obtain ⟨h1, h2, h3, h4, h5, h6, h7, h8, h9, h10, _⟩ := logSend_fields s m
  exact orderInv_of_fields s _ h h1 h2 h3 h4 h5 h6 (by rw [h7]) h8 h9 h10
    (logSend_fatal s m)

theorem orderInv_stepSrc (env : Env) (s t : RunState) (h : OrderInv s)
    (hs : stepSrc env s = some t) : OrderInv t := by
  unfold stepSrc at hs
  split at hs
  · exact absurd hs (by simp)
  · split at hs
    · cases hs; exact orderInv_of_fields s _ h rfl rfl rfl rfl rfl rfl rfl rfl rfl rfl rfl
    · split at hs
      · cases hs; exact orderInv_of_fields s _ h rfl rfl rfl rfl rfl rfl rfl rfl rfl rfl rfl
      · exact absurd hs (by simp)
  · cases hs
    have h' := orderInv_logSend s ‹LogMsg› h
    exact orderInv_of_fields _ _ h' rfl rfl rfl rfl rfl rfl rfl rfl rfl rfl rfl
  · cases hs; exact orderInv_of_fields s _ h rfl rfl rfl rfl rfl rfl rfl rfl rfl rfl rfl
  · split at hs
    · cases hs; exact orderInv_of_fields s _ h rfl rfl rfl rfl rfl rfl rfl rfl rfl rfl rfl
    · cases hs; exact orderInv_of_fields s _ h rfl rfl rfl rfl rfl rfl rfl rfl rfl rfl rfl

theorem orderInv_stepMain (env : Env) (s t : RunState) (h : OrderInv s)
    (hf : s.fatal = false) (hs : stepMain env s = some t) : OrderInv t := by
  obtain ⟨h1, h2, h3, h4, h5, h6, h7, h8, h9, h10, _⟩ := h
  unfold stepMain at hs
  split at hs <;> (try split at hs) <;> (try (simp at hs)) <;> (try subst hs) <;>
    constructor <;> simp_all [MainPc.idx, shutdownOrder] <;> assumption

theorem orderInv_stepSink (env : Env) (s t : RunState) (h : OrderInv s)
    (hf : s.fatal = false) (hs : stepSink env s = some t) : OrderInv t := by
  obtain ⟨h1, h2, h3, h4, h5, h6, h7, h8, h9, h10, _⟩ := h
  unfold stepSink at hs
  split at hs
  · rename_i hg
    simp only [Bool.and_eq_true, Bool.not_eq_true'] at hg
    cases hs
    constructor <;> (simp_all; try assumption)
  · exact absurd hs (by simp)

theorem orderInv_stepWriter (env : Env) (s t : RunState) (h : OrderInv s)
    (hf : s.fatal = false) (hs : stepWriter env s = some t) : OrderInv t := by
  unfold stepWriter at hs
  split at hs
  · rename_i m hpc
    cases hs
    obtain ⟨f1, f2, f3, f4, f5, f6, f7, f8, f9, f10, _⟩ := logSend_fields s m
    have f11 := logSend_fatal s m
    obtain ⟨h1, h2, h3, h4, h5, h6, h7, h8, h9, h10, _⟩ := h
    have hlt : ¬ 3 ≤ s.mainPc.idx := fun h3le => by
      have := h5 h3le; rw [hpc] at this; cases this
    constructor <;> (simp_all; try first | omega | assumption)
  · rename_i hpc
    obtain ⟨h1, h2, h3, h4, h5, h6, h7, h8, h9, h10, _⟩ := h
    have hlt : ¬ 3 ≤ s.mainPc.idx := fun h3le => by
      have := h5 h3le; rw [hpc] at this; cases this
    split at hs
    · split at hs
      · exact absurd hs (by simp)
      · cases hs
        constructor <;> (simp_all [statsOf]; try first | omega | assumption)
    · exact absurd hs (by simp)
  · exact absurd hs (by simp)

theorem idx_zero_of_worker (s : RunState) (h : OrderInv s) (i : Nat) (pc : WorkerPc)
    (hi : s.workers[i]? = some pc) (hpc : pc ≠ WorkerPc.exited) : s.mainPc.idx = 0 := by
  by_contra hne
  have := h.workers (by omega) pc (List.getElem?_mem hi)
  exact hpc this

theorem orderInv_of_idx_zero (s t : RunState) (h : OrderInv s) (h0 : s.mainPc.idx = 0)
    (h1 : t.mainTrace = s.mainTrace) (h2 : t.mainPc = s.mainPc)
    (h3 : t.outputClosed = s.outputClosed) (h4 : t.logClosed = s.logClosed)
    (h6 : t.writerPc ≠ WriterPc.exited) (h8 : t.statsBuf = s.statsBuf)
    (h10 : t.sinkExited = s.sinkExited) : OrderInv t := by
  have hw : s.writerPc ≠ WriterPc.exited := fun he => by
    have := (h.outputClosed).1 (h.writerOut he); omega
  have hsb := h.statsBuf (by omega)
  simp only [hw, if_false] at hsb
  constructor
  · rw [h1, h2]; exact h.trace
  · rw [h3, h2]; exact h.outputClosed
  · rw [h4, h2]; exact h.logClosed
  · rw [h2]; intro hle; omega
  · rw [h2]; intro hle; omega
  · intro he; exact absurd he h6
  · intro _; rw [h8, hsb]; simp [h6]
  · rw [h2]; intro hle; omega
  · rw [h10, h2]; exact h.sink
  · rw [h10, h4]; exact h.sinkLog
  · intro _; rw [h2]; exact h0

theorem afterWrite_ne_exited (env : Env) (st : WriterState) (o : Output) :
    afterWrite env st o ≠ WriterPc.exited := by
  unfold afterWrite
  split <;> simp

theorem orderInv_stepWorker (env : Env) (s t : RunState) (i : Nat) (h : OrderInv s)
    (hs : stepWorker env s i = some t) : OrderInv t := by
  have hw : s.mainPc.idx = 0 → s.writerPc ≠ WriterPc.exited := fun h0 he => by
    have := (h.outputClosed).1 (h.writerOut he); omega
  unfold stepWorker at hs
  split at hs
  · exact absurd hs (by simp)
  · rename_i hi
    have h0 := idx_zero_of_worker s h i _ hi (by simp)
    split at hs
    · cases hs
      exact orderInv_of_idx_zero s _ h h0 rfl rfl rfl rfl (hw h0) rfl rfl
    · cases hs
      exact orderInv_of_idx_zero s _ h h0 rfl rfl rfl rfl (hw h0) rfl rfl
  · rename_i hi
    have h0 := idx_zero_of_worker s h i _ hi (by simp)
    split at hs
    · cases hs
      exact orderInv_of_idx_zero s _ h h0 rfl rfl rfl rfl (hw h0) rfl rfl
    · split at hs
      · cases hs
        exact orderInv_of_idx_zero s _ h h0 rfl rfl rfl rfl (hw h0) rfl rfl
      · exact absurd hs (by simp)
  · rename_i o hi
    have h0 := idx_zero_of_worker s h i _ hi (by simp)
    split at hs
    · cases hs
      exact orderInv_of_idx_zero s _ h h0 rfl rfl rfl rfl (hw h0) rfl rfl
    · split at hs
      · cases hs
        exact orderInv_of_idx_zero s _ h h0 rfl rfl rfl rfl
          (afterWrite_ne_exited env s.writer o) rfl rfl
      · exact absurd hs (by simp)
  · rename_i m hi
    have h0 := idx_zero_of_worker s h i _ hi (by simp)
    cases hs
    obtain ⟨f1, f2, f3, f4, f5, f6, f7, f8, f9, f10, _⟩ := logSend_fields s m
    exact orderInv_of_idx_zero s _ h h0 f1 f2 f3 f4 (by rw [show _ = (logSend s m).writerPc from rfl, f6]; exact hw h0) f8 f10
  · exact absurd hs (by simp)

theorem guard_of_step (env : Env) (s t : RunState) (a : Action)
    (hs : step env s a = some t) :
    s.panicked = false ∧ s.fatal = false ∧ s.mainPc ≠ MainPc.done := by
  unfold step at hs
  split at hs
  · exact absurd hs (by simp)
  · rename_i hguard
    simp only [Bool.or_eq_true, beq_iff_eq, not_or, Bool.not_eq_true] at hguard
    exact ⟨hguard.1.1, hguard.1.2, hguard.2⟩

theorem orderInv_step (env : Env) (s t : RunState) (a : Action) (h : OrderInv s)
    (hs : step env s a = some t) : OrderInv t := by
  have hf := (guard_of_step env s t a hs).2.1
  unfold step at hs
  split at hs
  · exact absurd hs (by simp)
  · cases a with
    | src => exact orderInv_stepSrc env s t h hs
    | worker i => exact orderInv_stepWorker env s t i h hs
    | writer => exact orderInv_stepWriter env s t h hf hs
    | sink => exact orderInv_stepSink env s t h hf hs
    | main => exact orderInv_stepMain env s t h hf hs

theorem orderInv_run (env : Env) (acts : List Action) (s t : RunState) (h : OrderInv s)
    (hr : run env s acts = some t) : OrderInv t := by
  induction acts generalizing s with
  | nil => simp only [run, Option.some.injEq] at hr; subst hr; exact h
  | cons a rest ih =>
      simp only [run] at hr
      split at hr
      · exact absurd hr (by simp)
      · rename_i u hu
        exact ih u (orderInv_step env s u a h hu) hr

theorem held1_afterFetch (env : Env) (key : String) :
    held1 (afterFetch env key) = lineOf env key := by
  unfold afterFetch lineOf fetchAndHashStep
  cases env.GetObjectBytes key <;> rfl

theorem afterFetch_ne_exited (env : Env) (key : String) :
    afterFetch env key ≠ WorkerPc.exited := by
  unfold afterFetch
  split <;> simp

theorem heldLines_set (ws : List WorkerPc) (i : Nat) (a b : WorkerPc)
    (h : ws[i]? = some a) :
    (↑(heldLines (ws.set i b)) : Multiset String) + ↑(held1 a).toList =
      ↑(heldLines ws) + ↑(held1 b).toList := by
  induction ws generalizing i with
  | nil => simp at h
  | cons c rest ih =>
      cases i with
      | zero =>
          simp only [List.getElem?_cons_zero, Option.some.injEq] at h
          subst h
          simp only [List.set_cons_zero, heldLines, List.filterMap_cons]
          cases hc : held1 c <;> cases hb : held1 b <;>
            simp [← Multiset.cons_coe, ← Multiset.singleton_add, add_comm, add_left_comm, add_assoc]
      | succ j =>
          simp only [List.getElem?_cons_succ] at h
          have := ih j h
          simp only [List.set_cons_succ, heldLines, List.filterMap_cons] at this ⊢
          cases hc : held1 c
          · simpa using this
          · simp only [← Multiset.cons_coe, Multiset.cons_add]
            rw [this]

theorem writeCalls_writeStep (w : Nat) (outFh : Option OutFile) (o : Output)
    (st : WriterState) :
    (writeCalls (writeStep w outFh o st).trace).map Prod.fst =
      (writeCalls st.trace).map Prod.fst ++ [formatOutput o] := by
  cases h : WriteString outFh st.calls (formatOutput o) <;>
    simp [writeStep, h, writeCalls_append, writeCalls]

theorem heldLines_set_recv (ws : List WorkerPc) (i : Nat) (b : WorkerPc)
    (h : ws[i]? = some WorkerPc.recv) :
    (↑(heldLines (ws.set i b)) : Multiset String) =
      ↑(heldLines ws) + ↑(held1 b).toList := by
  have := heldLines_set ws i WorkerPc.recv b h
  simp only [held1, Option.toList, Multiset.coe_nil, add_zero] at this
  rw [this]
  rfl

theorem heldLines_set_to_recv (ws : List WorkerPc) (i : Nat) (a : WorkerPc)
    (h : ws[i]? = some a) :
    (↑(heldLines (ws.set i WorkerPc.recv)) : Multiset String) + ↑(held1 a).toList =
      ↑(heldLines ws) := by
  have := heldLines_set ws i a WorkerPc.recv h
  rw [this]
  simp only [held1, Option.toList, Multiset.coe_nil, add_zero]

theorem linesOf_congr (env : Env) (s t : RunState)
    (h1 : t.writer.trace = s.writer.trace) (h2 : t.workers = s.workers)
    (h3 : pendingKeys t = pendingKeys s) : linesOf env t = linesOf env s := by
  simp only [linesOf, attemptedLines, h1, h2, h3]

theorem linesOf_stepSrc (env : Env) (s t : RunState) (hs : stepSrc env s = some t) :
    linesOf env t = linesOf env s := by
  unfold stepSrc at hs
  split at hs
  · exact absurd hs (by simp)
  · rename_i key rest hsrc
    split at hs
    · cases hs; exact linesOf_congr env s _ rfl rfl rfl
    · split at hs
      · cases hs
        refine linesOf_congr env s _ rfl rfl ?_
        simp [pendingKeys, hsrc, keysSent]
      · exact absurd hs (by simp)
  · rename_i m rest hsrc
    cases hs
    obtain ⟨_, _, _, _, f5, _, f7, _, _, _, f11, f12, _⟩ := logSend_fields s m
    refine linesOf_congr env s _ (by simp [f7]) f5 ?_
    simp [pendingKeys, hsrc, keysSent, f12]
  · rename_i rest hsrc
    cases hs
    refine linesOf_congr env s _ rfl rfl ?_
    simp [pendingKeys, hsrc, keysSent]
  · rename_i rest hsrc
    split at hs
    · cases hs; exact linesOf_congr env s _ rfl rfl rfl
    · cases hs
      refine linesOf_congr env s _ rfl rfl ?_
      simp [pendingKeys, hsrc, keysSent]

theorem linesOf_stepWorker (env : Env) (s t : RunState) (i : Nat)
    (hs : stepWorker env s i = some t) : linesOf env t = linesOf env s := by
  unfold stepWorker at hs
  split at hs
  · exact absurd hs (by simp)
  · rename_i hi
    split at hs
    · cases hs; exact linesOf_congr env s _ rfl rfl rfl
    · cases hs
      have hset := heldLines_set s.workers i _ WorkerPc.recv hi
      simp only [held1, Option.toList, Multiset.coe_nil, add_zero] at hset
      simp only [linesOf, attemptedLines, pendingKeys, hset]
  · rename_i hi
    split at hs
    · rename_i key rest hbuf
      cases hs
      have hset := heldLines_set_recv s.workers i (afterFetch env key) hi
      rw [held1_afterFetch] at hset
      simp only [linesOf, attemptedLines, pendingKeys, hbuf, List.cons_append,
        List.filterMap_cons, hset]
      cases hl : lineOf env key
      · simp only [Option.toList, Multiset.coe_nil, add_zero]
      · simp only [Option.toList, ← Multiset.cons_coe, ← Multiset.singleton_add,
          Multiset.coe_nil, Multiset.cons_zero]
        abel
    · split at hs
      · cases hs
        have hset := heldLines_set_recv s.workers i WorkerPc.exited hi
        simp only [held1, Option.toList, Multiset.coe_nil, add_zero] at hset
        simp only [linesOf, attemptedLines, pendingKeys, hset]
      · exact absurd hs (by simp)
  · rename_i o hi
    split at hs
    · cases hs; exact linesOf_congr env s _ rfl rfl rfl
    · split at hs
      · cases hs
        have hset := heldLines_set_to_recv s.workers i _ hi
        simp only [held1, Option.toList] at hset
        have hw := writeCalls_writeStep env.w (handleOf env.osOpenFile) o s.writer
        simp only [linesOf, attemptedLines, pendingKeys, hw, ← hset, ← Multiset.coe_add]
        abel
      · exact absurd hs (by simp)
  · rename_i m hi
    cases hs
    obtain ⟨_, _, _, _, f5, _, f7, _, _, _, f11, f12, _⟩ := logSend_fields s m
    have hset := heldLines_set_to_recv s.workers i _ hi
    simp only [held1, Option.toList, Multiset.coe_nil, add_zero] at hset
    simp only [linesOf, attemptedLines, pendingKeys, f5, f7, f11, f12, hset]
  · exact absurd hs (by simp)

theorem linesOf_stepWriter (env : Env) (s t : RunState)
    (hs : stepWriter env s = some t) : linesOf env t = linesOf env s := by
  unfold stepWriter at hs
  split at hs
  · rename_i m hpc
    cases hs
    obtain ⟨_, _, _, _, f5, _, f7, _, _, _, f11, f12, _⟩ := logSend_fields s m
    simp only [linesOf, attemptedLines, pendingKeys, f5, f7, f11, f12]
  · split at hs
    · split at hs
      · exact absurd hs (by simp)
      · cases hs
        simp [linesOf, attemptedLines, pendingKeys, writeCalls_append, writeCalls]
    · exact absurd hs (by simp)
  · exact absurd hs (by simp)

theorem linesOf_stepSink (env : Env) (s t : RunState)
    (hs : stepSink env s = some t) : linesOf env t = linesOf env s := by
  unfold stepSink at hs
  split at hs
  · cases hs; rfl
  · exact absurd hs (by simp)

theorem linesOf_stepMain (env : Env) (s t : RunState)
    (hs : stepMain env s = some t) : linesOf env t = linesOf env s := by
  unfold stepMain at hs
  split at hs <;> (try split at hs) <;> (try (simp at hs)) <;> (try subst hs) <;> rfl

theorem linesOf_step (env : Env) (s t : RunState) (a : Action)
    (hs : step env s a = some t) : linesOf env t = linesOf env s := by
  unfold step at hs
  split at hs
  · exact absurd hs (by simp)
  · cases a with
    | src => exact linesOf_stepSrc env s t hs
    | worker i => exact linesOf_stepWorker env s t i hs
    | writer => exact linesOf_stepWriter env s t hs
    | sink => exact linesOf_stepSink env s t hs
    | main => exact linesOf_stepMain env s t hs

theorem linesOf_run (env : Env) (acts : List Action) (s t : RunState)
    (hr : run env s acts = some t) : linesOf env t = linesOf env s := by
  induction acts generalizing s with
  | nil => simp only [run, Option.some.injEq] at hr; subst hr; rfl
  | cons a rest ih =>
      simp only [run] at hr
      split at hr
      · exact absurd hr (by simp)
      · rename_i u hu
        rw [ih u hr, linesOf_step env s u a hu]

theorem heldLines_replicate_start (n : Nat) :
    heldLines (List.replicate n WorkerPc.start) = [] := by
  induction n with
  | zero => rfl
  | succ k ih => simp [List.replicate_succ, heldLines, held1]

theorem linesOf_init (env : Env) :
    linesOf env (initState env) =
      ↑((keysSent (streamKeys env.osOpen)).filterMap (lineOf env)) := by
  have hw : (writeCalls (writerStart env.osOpenFile).2) = [] := by
    cases env.osOpenFile <;> rfl
  simp [linesOf, attemptedLines, pendingKeys, initState, heldLines_replicate_start, hw]

theorem logSend_received (s : RunState) (m : LogMsg) :
    (logSend s m).received = s.received := by
  unfold logSend
  split <;> rfl

theorem keysOf_congr (s t : RunState) (h1 : t.received = s.received)
    (h2 : pendingKeys t = pendingKeys s) : keysOf t = keysOf s := by
  simp only [keysOf, h1, h2]

theorem keysOf_stepSrc (env : Env) (s t : RunState) (hs : stepSrc env s = some t) :
    keysOf t = keysOf s := by
  unfold stepSrc at hs
  split at hs
  · exact absurd hs (by simp)
  · rename_i key rest hsrc
    split at hs
    · cases hs; exact keysOf_congr s _ rfl rfl
    · split at hs
      · cases hs
        refine keysOf_congr s _ rfl ?_
        simp [pendingKeys, hsrc, keysSent]
      · exact absurd hs (by simp)
  · rename_i m rest hsrc
    cases hs
    obtain ⟨_, _, _, _, _, _, _, _, _, _, _, f12, _⟩ := logSend_fields s m
    refine keysOf_congr s _ (logSend_received s m) ?_
    simp [pendingKeys, hsrc, keysSent, f12]
  · rename_i rest hsrc
    cases hs
    refine keysOf_congr s _ rfl ?_
    simp [pendingKeys, hsrc, keysSent]
  · rename_i rest hsrc
    split at hs
    · cases hs; exact keysOf_congr s _ rfl rfl
    · cases hs
      refine keysOf_congr s _ rfl ?_
      simp [pendingKeys, hsrc, keysSent]

theorem keysOf_stepWorker (env : Env) (s t : RunState) (i : Nat)
    (hs : stepWorker env s i = some t) : keysOf t = keysOf s := by
  unfold stepWorker at hs
  split at hs
  · exact absurd hs (by simp)
  · split at hs
    · cases hs; exact keysOf_congr s _ rfl rfl
    · cases hs; exact keysOf_congr s _ rfl rfl
  · split at hs
    · rename_i key rest hbuf
      cases hs
      simp only [keysOf, pendingKeys, hbuf, List.map_append, List.map_cons, List.map_nil,
        List.cons_append, ← Multiset.coe_add, ← Multiset.cons_coe, ← Multiset.singleton_add,
        Multiset.coe_nil, Multiset.cons_zero]
      abel
    · split at hs
      · cases hs; exact keysOf_congr s _ rfl rfl
      · exact absurd hs (by simp)
  · split at hs
    · cases hs; exact keysOf_congr s _ rfl rfl
    · split at hs
      · cases hs; exact keysOf_congr s _ rfl rfl
      · exact absurd hs (by simp)
  · rename_i m hi
    cases hs
    obtain ⟨_, _, _, _, _, _, _, _, _, _, f11, f12, _⟩ := logSend_fields s m
    refine keysOf_congr s _ (logSend_received s m) ?_
    simp only [pendingKeys, f11, f12]
  · exact absurd hs (by simp)

theorem keysOf_stepWriter (env : Env) (s t : RunState)
    (hs : stepWriter env s = some t) : keysOf t = keysOf s := by
  unfold stepWriter at hs
  split at hs
  · rename_i m hpc
    cases hs
    obtain ⟨_, _, _, _, _, _, _, _, _, _, f11, f12, _⟩ := logSend_fields s m
    refine keysOf_congr s _ (logSend_received s m) ?_
    simp only [pendingKeys, f11, f12]
  · split at hs
    · split at hs
      · exact absurd hs (by simp)
      · cases hs; exact keysOf_congr s _ rfl rfl
    · exact absurd hs (by simp)
  · exact absurd hs (by simp)

theorem keysOf_stepSink (env : Env) (s t : RunState)
    (hs : stepSink env s = some t) : keysOf t = keysOf s := by
  unfold stepSink at hs
  split at hs
  · cases hs; rfl
  · exact absurd hs (by simp)

theorem keysOf_stepMain (env : Env) (s t : RunState)
    (hs : stepMain env s = some t) : keysOf t = keysOf s := by
  unfold stepMain at hs
  split at hs <;> (try split at hs) <;> (try (simp at hs)) <;> (try subst hs) <;> rfl

theorem keysOf_step (env : Env) (s t : RunState) (a : Action)
    (hs : step env s a = some t) : keysOf t = keysOf s := by
  unfold step at hs
  split at hs
  · exact absurd hs (by simp)
  · cases a with
    | src => exact keysOf_stepSrc env s t hs
    | worker i => exact keysOf_stepWorker env s t i hs
    | writer => exact keysOf_stepWriter env s t hs
    | sink => exact keysOf_stepSink env s t hs
    | main => exact keysOf_stepMain env s t hs

theorem keysOf_run (env : Env) (acts : List Action) (s t : RunState)
    (hr : run env s acts = some t) : keysOf t = keysOf s := by
  induction acts generalizing s with
  | nil => simp only [run, Option.some.injEq] at hr; subst hr; rfl
  | cons a rest ih =>
      simp only [run] at hr
      split at hr
      · exact absurd hr (by simp)
      · rename_i u hu
        rw [ih u hr, keysOf_step env s u a hu]

theorem keysOf_init (env : Env) :
    keysOf (initState env) = ↑(keysSent (streamKeys env.osOpen)) := by
  simp [keysOf, pendingKeys, initState]

theorem received_workers_step (env : Env) (s t : RunState) (a : Action)
    (h : ∀ p ∈ s.received, p.1 < s.workers.length)
    (hs : step env s a = some t) :
    t.workers.length = s.workers.length ∧ ∀ p ∈ t.received, p.1 < t.workers.length := by
  unfold step at hs
  split at hs
  · exact absurd hs (by simp)
  · cases a with
    | src =>
        simp only at hs
        unfold stepSrc at hs
        split at hs
        · exact absurd hs (by simp)
        · split at hs
          · cases hs; exact ⟨rfl, h⟩
          · split at hs
            · cases hs; exact ⟨rfl, h⟩
            · exact absurd hs (by simp)
        · rename_i m rest hsrc
          cases hs
          obtain ⟨_, _, _, _, f5, _⟩ := logSend_fields s m
          have f := logSend_received s m
          refine ⟨by show (logSend s m).workers.length = _; rw [f5], ?_⟩
          show ∀ p ∈ (logSend s m).received, p.1 < (logSend s m).workers.length
          rw [f, f5]; exact h
        · cases hs; exact ⟨rfl, h⟩
        · split at hs
          · cases hs; exact ⟨rfl, h⟩
          · cases hs; exact ⟨rfl, h⟩
    | worker i =>
        simp only at hs
        unfold stepWorker at hs
        split at hs
        · exact absurd hs (by simp)
        · split at hs
          · cases hs; exact ⟨rfl, h⟩
          · cases hs
            refine ⟨List.length_set _ _ _, ?_⟩
            simpa only [List.length_set] using h
        · rename_i hi
          split at hs
          · cases hs
            refine ⟨List.length_set _ _ _, ?_⟩
            intro p hp
            simp only [List.length_set]
            simp only [List.mem_append, List.mem_singleton] at hp
            rcases hp with hp | hp
            · exact h p hp
            · subst hp
              by_contra hge
              rw [List.getElem?_eq_none (by omega)] at hi
              cases hi
          · split at hs
            · cases hs
              refine ⟨List.length_set _ _ _, ?_⟩
              simpa only [List.length_set] using h
            · exact absurd hs (by simp)
        · split at hs
          · cases hs; exact ⟨rfl, h⟩
          · split at hs
            · cases hs
              refine ⟨List.length_set _ _ _, ?_⟩
              simpa only [List.length_set] using h
            · exact absurd hs (by simp)
        · rename_i m hi
          cases hs
          have f := logSend_received s m
          refine ⟨List.length_set _ _ _, ?_⟩
          show ∀ p ∈ (logSend s m).received, p.1 < (s.workers.set i WorkerPc.recv).length
          rw [f, List.length_set]; exact h
        · exact absurd hs (by simp)
    | writer =>
        simp only at hs
        unfold stepWriter at hs
        split at hs
        · rename_i m hpc
          cases hs
          obtain ⟨_, _, _, _, f5, _⟩ := logSend_fields s m
          have f := logSend_received s m
          refine ⟨by show (logSend s m).workers.length = _; rw [f5], ?_⟩
          show ∀ p ∈ (logSend s m).received, p.1 < (logSend s m).workers.length
          rw [f, f5]; exact h
        · split at hs
          · split at hs
            · exact absurd hs (by simp)
            · cases hs; exact ⟨rfl, h⟩
          · exact absurd hs (by simp)
        · exact absurd hs (by simp)
    | sink =>
        simp only at hs
        unfold stepSink at hs
        split at hs
        · cases hs; exact ⟨rfl, h⟩
        · exact absurd hs (by simp)
    | main =>
        simp only at hs
        unfold stepMain at hs
        split at hs <;> (try split at hs) <;> (try (simp at hs)) <;> (try subst hs) <;>
          exact ⟨rfl, h⟩

theorem received_workers_run (env : Env) (acts : List Action) (s t : RunState)
    (h : ∀ p ∈ s.received, p.1 < s.workers.length)
    (hr : run env s acts = some t) : ∀ p ∈ t.received, p.1 < t.workers.length := by
  induction acts generalizing s with
  | nil => simp only [run, Option.some.injEq] at hr; subst hr; exact h
  | cons a rest ih =>
      simp only [run] at hr
      split at hr
      · exact absurd hr (by simp)
      · rename_i u hu
        exact ih u (received_workers_step env s u a h hu).2 hr

theorem keysInv_init (env : Env) : KeysInv env (initState env) := by
  constructor
  · simp [initState]
  · left
    obtain ⟨pre, h1, h2⟩ := streamKeys_shape env.osOpen
    exact ⟨rfl, pre, h1, h2⟩
  · intro h
    simp [initState] at h
  · simp [initState]

theorem keysInv_of_fields (env : Env) (s t : RunState) (h : KeysInv env s)
    (h1 : t.workers = s.workers) (h2 : t.src = s.src) (h3 : t.keysBuf = s.keysBuf)
    (h4 : t.keysClosed = s.keysClosed) : KeysInv env t := by
  constructor
  · rw [h1]; exact h.nWorkers
  · rw [h2, h4]; exact h.srcShape
  · rw [h1, h3, h4]; exact h.exitedKeys
  · rw [h3]; exact h.bufLen

theorem srcShape_tail (ev : KeyEvent) (rest : List KeyEvent) (hne : ev ≠ KeyEvent.closeKeys)
    (h : ∃ pre, ev :: rest = pre ++ [KeyEvent.closeKeys] ∧ KeyEvent.closeKeys ∉ pre) :
    ∃ pre, rest = pre ++ [KeyEvent.closeKeys] ∧ KeyEvent.closeKeys ∉ pre := by
  obtain ⟨pre, h1, h2⟩ := h
  cases pre with
  | nil =>
      simp only [List.nil_append, List.cons.injEq] at h1
      exact absurd h1.1 hne
  | cons p pre' =>
      simp only [List.cons_append, List.cons.injEq] at h1
      refine ⟨pre', h1.2, ?_⟩
      intro hmem
      exact h2 (List.mem_cons_of_mem p hmem)

theorem srcShape_close (rest : List KeyEvent)
    (h : ∃ pre, KeyEvent.closeKeys :: rest = pre ++ [KeyEvent.closeKeys] ∧
      KeyEvent.closeKeys ∉ pre) : rest = [] := by
  obtain ⟨pre, h1, h2⟩ := h
  cases pre with
  | nil =>
      simp only [List.nil_append, List.cons.injEq] at h1
      exact h1.2
  | cons p pre' =>
      simp only [List.cons_append, List.cons.injEq] at h1
      exact absurd (h1.1 ▸ List.mem_cons_self _ _) h2

theorem keysInv_stepSrc (env : Env) (s t : RunState) (h : KeysInv env s)
    (hs : stepSrc env s = some t) : KeysInv env t := by
  have hshape : s.src ≠ [] → s.keysClosed = false ∧
      ∃ pre, s.src = pre ++ [KeyEvent.closeKeys] ∧ KeyEvent.closeKeys ∉ pre := by
    intro hne
    rcases h.srcShape with hh | hh
    · exact hh
    · exact absurd hh.2 hne
  have hnoexit : s.keysClosed = false → WorkerPc.exited ∉ s.workers := by
    intro hc hmem
    have := (h.exitedKeys hmem).1
    rw [hc] at this
    cases this
  unfold stepSrc at hs
  split at hs
  · exact absurd hs (by simp)
  · rename_i key rest hsrc
    obtain ⟨hc, hpre⟩ := hshape (by simp [hsrc])
    rw [hsrc] at hpre
    split at hs
    · cases hs; exact keysInv_of_fields env s _ h rfl rfl rfl rfl
    · split at hs
      · rename_i hlen
        cases hs
        constructor
        · exact h.nWorkers
        · left; exact ⟨hc, srcShape_tail _ rest (by simp) hpre⟩
        · intro hmem; exact absurd hmem (hnoexit hc)
        · simp only [List.length_append, List.length_singleton]; omega
      · exact absurd hs (by simp)
  · rename_i m rest hsrc
    obtain ⟨hc, hpre⟩ := hshape (by simp [hsrc])
    rw [hsrc] at hpre
    cases hs
    obtain ⟨_, _, _, _, f5, _, _, _, _, _, f11, f12, f13⟩ := logSend_fields s m
    constructor
    · show (logSend s m).workers.length = _
      rw [f5]; exact h.nWorkers
    · left
      refine ⟨?_, srcShape_tail _ rest (by simp) hpre⟩
      show (logSend s m).keysClosed = false
      rw [f13]; exact hc
    · show WorkerPc.exited ∈ (logSend s m).workers →
        (logSend s m).keysClosed = true ∧ (logSend s m).keysBuf = []
      rw [f5, f12, f13]; exact h.exitedKeys
    · show (logSend s m).keysBuf.length ≤ _
      rw [f12]; exact h.bufLen
  · rename_i rest hsrc
    obtain ⟨hc, hpre⟩ := hshape (by simp [hsrc])
    rw [hsrc] at hpre
    cases hs
    constructor
    · exact h.nWorkers
    · left; exact ⟨hc, srcShape_tail _ rest (by simp) hpre⟩
    · exact h.exitedKeys
    · exact h.bufLen
  · rename_i rest hsrc
    obtain ⟨hc, hpre⟩ := hshape (by simp [hsrc])
    rw [hsrc] at hpre
    split at hs
    · cases hs; exact keysInv_of_fields env s _ h rfl rfl rfl rfl
    · cases hs
      constructor
      · exact h.nWorkers
      · right; exact ⟨rfl, srcShape_close rest hpre⟩
      · intro hmem; exact absurd hmem (hnoexit hc)
      · exact h.bufLen

theorem keysInv_stepWorker (env : Env) (s t : RunState) (i : Nat) (h : KeysInv env s)
    (hs : stepWorker env s i = some t) : KeysInv env t := by
  have hmem_set : ∀ b : WorkerPc, b ≠ WorkerPc.exited →
      WorkerPc.exited ∈ s.workers.set i b → WorkerPc.exited ∈ s.workers := by
    intro b hb hm
    rcases List.mem_or_eq_of_mem_set hm with hm | hm
    · exact hm
    · exact absurd hm.symm hb
  unfold stepWorker at hs
  split at hs
  · exact absurd hs (by simp)
  · split at hs
    · cases hs; exact keysInv_of_fields env s _ h rfl rfl rfl rfl
    · cases hs
      constructor
      · simp only [List.length_set]; exact h.nWorkers
      · exact h.srcShape
      · intro hm; exact h.exitedKeys (hmem_set _ (by simp) hm)
      · exact h.bufLen
  · rename_i hi
    split at hs
    · rename_i key rest hbuf
      cases hs
      constructor
      · simp only [List.length_set]; exact h.nWorkers
      · exact h.srcShape
      · intro hm
        have := (h.exitedKeys (hmem_set _ (afterFetch_ne_exited env key) hm)).2
        rw [hbuf] at this
        cases this
      · have := h.bufLen
        rw [hbuf] at this
        simp only [List.length_cons] at this
        show rest.length ≤ env.numThreads
        omega
    · rename_i hbuf
      split at hs
      · rename_i hclosed
        cases hs
        constructor
        · simp only [List.length_set]; exact h.nWorkers
        · exact h.srcShape
        · intro _; exact ⟨hclosed, hbuf⟩
        · exact h.bufLen
      · exact absurd hs (by simp)
  · rename_i o hi
    split at hs
    · cases hs; exact keysInv_of_fields env s _ h rfl rfl rfl rfl
    · split at hs
      · cases hs
        constructor
        · simp only [List.length_set]; exact h.nWorkers
        · exact h.srcShape
        · intro hm; exact h.exitedKeys (hmem_set _ (by simp) hm)
        · exact h.bufLen
      · exact absurd hs (by simp)
  · rename_i m hi
    cases hs
    obtain ⟨_, _, _, _, f5, _, _, _, _, _, f11, f12, f13⟩ := logSend_fields s m
    constructor
    · show (s.workers.set i WorkerPc.recv).length = _
      rw [List.length_set]; exact h.nWorkers
    · show ((logSend s m).keysClosed = false ∧ ∃ pre, (logSend s m).src = _ ∧ _) ∨
        ((logSend s m).keysClosed = true ∧ (logSend s m).src = [])
      rw [f11, f13]; exact h.srcShape
    · show WorkerPc.exited ∈ s.workers.set i WorkerPc.recv →
        (logSend s m).keysClosed = true ∧ (logSend s m).keysBuf = []
      rw [f12, f13]
      intro hm; exact h.exitedKeys (hmem_set _ (by simp) hm)
    · show (logSend s m).keysBuf.length ≤ _
      rw [f12]; exact h.bufLen
  · exact absurd hs (by simp)

theorem keysInv_stepWriter (env : Env) (s t : RunState) (h : KeysInv env s)
    (hs : stepWriter env s = some t) : KeysInv env t := by
  unfold stepWriter at hs
  split at hs
  · rename_i m hpc
    cases hs
    obtain ⟨_, _, _, _, f5, _, _, _, _, _, f11, f12, f13⟩ := logSend_fields s m
    exact keysInv_of_fields env s _ h f5 f11 f12 f13
  · split at hs
    · split at hs
      · exact absurd hs (by simp)
      · cases hs; exact keysInv_of_fields env s _ h rfl rfl rfl rfl
    · exact absurd hs (by simp)
  · exact absurd hs (by simp)

theorem keysInv_stepSink (env : Env) (s t : RunState) (h : KeysInv env s)
    (hs : stepSink env s = some t) : KeysInv env t := by
  unfold stepSink at hs
  split at hs
  · cases hs; exact keysInv_of_fields env s _ h rfl rfl rfl rfl
  · exact absurd hs (by simp)

theorem keysInv_stepMain (env : Env) (s t : RunState) (h : KeysInv env s)
    (hs : stepMain env s = some t) : KeysInv env t := by
  unfold stepMain at hs
  split at hs <;> (try split at hs) <;> (try (simp at hs)) <;> (try subst hs) <;>
    exact keysInv_of_fields env s _ h rfl rfl rfl rfl

theorem keysInv_step (env : Env) (s t : RunState) (a : Action) (h : KeysInv env s)
    (hs : step env s a = some t) : KeysInv env t := by
  unfold step at hs
  split at hs
  · exact absurd hs (by simp)
  · cases a with
    | src => exact keysInv_stepSrc env s t h hs
    | worker i => exact keysInv_stepWorker env s t i h hs
    | writer => exact keysInv_stepWriter env s t h hs
    | sink => exact keysInv_stepSink env s t h hs
    | main => exact keysInv_stepMain env s t h hs

theorem keysInv_run (env : Env) (acts : List Action) (s t : RunState) (h : KeysInv env s)
    (hr : run env s acts = some t) : KeysInv env t := by
  induction acts generalizing s with
  | nil => simp only [run, Option.some.injEq] at hr; subst hr; exact h
  | cons a rest ih =>
      simp only [run] at hr
      split at hr
      · exact absurd hr (by simp)
      · rename_i u hu
        exact ih u (keysInv_step env s u a h hu) hr

theorem logSend_panicked (s : RunState) (m : LogMsg) (h : s.logClosed = false) :
    logSend s m = { s with logged := s.logged ++ [m] } := by
  simp [logSend, h]

theorem idx_zero_of_open_keys (env : Env) (hN : 1 ≤ env.numThreads) (s : RunState)
    (ho : OrderInv s) (hk : KeysInv env s) (hc : s.keysClosed = false) :
    s.mainPc.idx = 0 := by
  have hlen : 0 < s.workers.length := by rw [hk.nWorkers]; omega
  obtain ⟨pc, hpc⟩ := List.exists_mem_of_length_pos hlen
  by_contra hne
  have hex := ho.workers (by omega) pc hpc
  rw [hex] at hpc
  have := (hk.exitedKeys hpc).1
  rw [hc] at this
  cases this

theorem logClosed_of_idx (s : RunState) (ho : OrderInv s) (h : s.mainPc.idx < 5) :
    s.logClosed = false := by
  cases hl : s.logClosed
  · rfl
  · have := ho.logClosed.1 hl; omega

theorem outputClosed_of_idx (s : RunState) (ho : OrderInv s) (h : s.mainPc.idx < 2) :
    s.outputClosed = false := by
  cases hl : s.outputClosed
  · rfl
  · have := ho.outputClosed.1 hl; omega

theorem idx_lt_of_writer (s : RunState) (ho : OrderInv s)
    (h : s.writerPc ≠ WriterPc.exited) : s.mainPc.idx < 3 := by
  by_contra hge
  exact h (ho.writer (by omega))

theorem keysClosed_of_src (env : Env) (s : RunState) (hk : KeysInv env s)
    (h : s.src ≠ []) : s.keysClosed = false := by
  rcases hk.srcShape with hh | hh
  · exact hh.1
  · exact absurd hh.2 h

theorem noPanic_step (env : Env) (hN : 1 ≤ env.numThreads) (s t : RunState) (a : Action)
    (ho : OrderInv s) (hk : KeysInv env s) (hs : step env s a = some t) :
    t.panicked = false := by
  have hp := (guard_of_step env s t a hs).1
  unfold step at hs
  split at hs
  · exact absurd hs (by simp)
  · cases a with
    | src =>
        simp only at hs
        unfold stepSrc at hs
        split at hs
        · exact absurd hs (by simp)
        · rename_i key rest hsrc
          have hc := keysClosed_of_src env s hk (by simp [hsrc])
          simp only [hc, Bool.false_eq_true, if_false] at hs
          split at hs
          · cases hs; exact hp
          · exact absurd hs (by simp)
        · rename_i m rest hsrc
          have hc := keysClosed_of_src env s hk (by simp [hsrc])
          have h0 := idx_zero_of_open_keys env hN s ho hk hc
          rw [logSend_panicked s m (logClosed_of_idx s ho (by omega))] at hs
          cases hs; exact hp
        · cases hs; exact hp
        · rename_i rest hsrc
          have hc := keysClosed_of_src env s hk (by simp [hsrc])
          simp only [hc, Bool.false_eq_true, if_false] at hs
          cases hs; exact hp
    | worker i =>
        simp only at hs
        unfold stepWorker at hs
        split at hs
        · exact absurd hs (by simp)
        · split at hs
          · cases hs; exact hp
          · cases hs; exact hp
        · split at hs
          · cases hs; exact hp
          · split at hs
            · cases hs; exact hp
            · exact absurd hs (by simp)
        · rename_i o hi
          have h0 := idx_zero_of_worker s ho i _ hi (by simp)
          simp only [outputClosed_of_idx s ho (by omega), Bool.false_eq_true, if_false] at hs
          split at hs
          · cases hs; exact hp
          · exact absurd hs (by simp)
        · rename_i m hi
          have h0 := idx_zero_of_worker s ho i _ hi (by simp)
          rw [logSend_panicked s m (logClosed_of_idx s ho (by omega))] at hs
          cases hs; exact hp
        · exact absurd hs (by simp)
    | writer =>
        simp only at hs
        unfold stepWriter at hs
        split at hs
        · rename_i m hpc
          have hlt := idx_lt_of_writer s ho (by simp [hpc])
          rw [logSend_panicked s m (logClosed_of_idx s ho (by omega))] at hs
          cases hs; exact hp
        · split at hs
          · split at hs
            · exact absurd hs (by simp)
            · cases hs; exact hp
          · exact absurd hs (by simp)
        · exact absurd hs (by simp)
    | sink =>
        simp only at hs
        unfold stepSink at hs
        split at hs
        · cases hs; exact hp
        · exact absurd hs (by simp)
    | main =>
        simp only at hs
        unfold stepMain at hs
        split at hs
        · split at hs
          · cases hs; exact hp
          · exact absurd hs (by simp)
        · rename_i hpc
          simp only [outputClosed_of_idx s ho (by simp [hpc, MainPc.idx]),
            Bool.false_eq_true, if_false] at hs
          cases hs; exact hp
        · split at hs
          · cases hs; exact hp
          · exact absurd hs (by simp)
        · split at hs
          · cases hs; exact hp
          · exact absurd hs (by simp)
        · rename_i hpc
          simp only [logClosed_of_idx s ho (by simp [hpc, MainPc.idx]),
            Bool.false_eq_true, if_false] at hs
          cases hs; exact hp
        · split at hs
          · cases hs; exact hp
          · exact absurd hs (by simp)
        · cases hs; exact hp
        · exact absurd hs (by simp)

theorem noPanic_run (env : Env) (hN : 1 ≤ env.numThreads) (acts : List Action)
    (s t : RunState) (ho : OrderInv s) (hk : KeysInv env s) (hp : s.panicked = false)
    (hr : run env s acts = some t) : t.panicked = false := by
  induction acts generalizing s with
  | nil => simp only [run, Option.some.injEq] at hr; subst hr; exact hp
  | cons a rest ih =>
      simp only [run] at hr
      split at hr
      · exact absurd hr (by simp)
      · rename_i u hu
        exact ih u (orderInv_step env s u a ho hu) (keysInv_step env s u a hk hu)
          (noPanic_step env hN s u a ho hk hu) hr

theorem heldLines_all_exited (ws : List WorkerPc) (h : ∀ pc ∈ ws, pc = WorkerPc.exited) :
    heldLines ws = [] := by
  induction ws with
  | nil => rfl
  | cons a rest ih =>
      have ha := h a (List.mem_cons_self a rest)
      subst ha
      simpa [heldLines, held1] using ih (fun pc hpc => h pc (List.mem_cons_of_mem _ hpc))

theorem final_lines (env : Env) (hN : 1 ≤ env.numThreads) (acts : List Action)
    (s : RunState) (hr : run env (initState env) acts = some s)
    (hd : s.mainPc = MainPc.done) :
    s.panicked = false ∧
    (↑(attemptedLines s) : Multiset String) =
      ↑((keysSent (streamKeys env.osOpen)).filterMap (lineOf env)) := by
  have ho := orderInv_run env acts _ s (orderInv_init env) hr
  have hk := keysInv_run env acts _ s (keysInv_init env) hr
  have hp := noPanic_run env hN acts _ s (orderInv_init env) (keysInv_init env) rfl hr
  have hl := linesOf_run env acts _ s hr
  rw [linesOf_init] at hl
  refine ⟨hp, ?_⟩
  have hall := ho.workers (by simp [hd, MainPc.idx])
  have hlen : 0 < s.workers.length := by rw [hk.nWorkers]; omega
  obtain ⟨pc, hpc⟩ := List.exists_mem_of_length_pos hlen
  have hex := hall pc hpc
  rw [hex] at hpc
  obtain ⟨hclosed, hbuf⟩ := hk.exitedKeys hpc
  have hsrc : s.src = [] := by
    rcases hk.srcShape with hh | hh
    · rw [hclosed] at hh; cases hh.1
    · exact hh.2
  rw [← hl]
  simp [linesOf, pendingKeys, hbuf, hsrc, keysSent, heldLines_all_exited s.workers hall]

theorem weight_set (ws : List WorkerPc) (i : Nat) (a b : WorkerPc) (h : ws[i]? = some a) :
    ((ws.set i b).map workerWeight).sum + workerWeight a =
      (ws.map workerWeight).sum + workerWeight b := by
  induction ws generalizing i with
  | nil => simp at h
  | cons c rest ih =>
      cases i with
      | zero =>
          simp only [List.getElem?_cons_zero, Option.some.injEq] at h
          subst h
          simp only [List.set_cons_zero, List.map_cons, List.sum_cons]
          omega
      | succ j =>
          simp only [List.getElem?_cons_succ] at h
          have := ih j h
          simp only [List.set_cons_succ, List.map_cons, List.sum_cons]
          omega

theorem afterFetch_weight (env : Env) (key : String) :
    workerWeight (afterFetch env key) ≤ 3 := by
  unfold afterFetch
  split <;> simp [workerWeight]

theorem afterWrite_weight (env : Env) (st : WriterState) (o : Output) :
    writerWeight (afterWrite env st o) ≤ 2 := by
  unfold afterWrite
  split <;> simp [writerWeight]

theorem logSend_measure (s : RunState) (m : LogMsg) (hp : s.panicked = false) :
    (if (logSend s m).panicked then 0 else 1) ≤ (if s.panicked then 0 else 1) := by
  unfold logSend
  split <;> simp [hp]

theorem measure_stepSrc (env : Env) (s t : RunState) (hp : s.panicked = false)
    (hs : stepSrc env s = some t) : runMeasure t < runMeasure s := by
  unfold stepSrc at hs
  split at hs
  · exact absurd hs (by simp)
  · rename_i key rest hsrc
    split at hs
    · cases hs; simp [runMeasure, hp]
    · split at hs
      · cases hs
        simp only [runMeasure, hsrc, List.map_cons, List.sum_cons, srcWeight,
          List.length_append, List.length_singleton]
        omega
      · exact absurd hs (by simp)
  · rename_i m rest hsrc
    cases hs
    obtain ⟨_, f2, _, _, f5, f6, _, _, _, f10, f11, f12, _⟩ := logSend_fields s m
    have hpm := logSend_measure s m hp
    have hfm := logSend_fatal s m
    simp only [runMeasure, hsrc, List.map_cons, List.sum_cons, srcWeight, f2, f5, f6, f10, f12,
      hfm]
    omega
  · rename_i rest hsrc
    cases hs
    simp only [runMeasure, hsrc, List.map_cons, List.sum_cons, srcWeight]
    omega
  · rename_i rest hsrc
    split at hs
    · cases hs; simp [runMeasure, hp]
    · cases hs
      simp only [runMeasure, hsrc, List.map_cons, List.sum_cons, srcWeight]
      omega

theorem measure_stepWorker (env : Env) (s t : RunState) (i : Nat) (hp : s.panicked = false)
    (hf : s.fatal = false) (hs : stepWorker env s i = some t) :
    runMeasure t < runMeasure s := by
  have w0 : workerWeight WorkerPc.start = 2 := rfl
  have w1 : workerWeight WorkerPc.recv = 1 := rfl
  have w2 : workerWeight WorkerPc.exited = 0 := rfl
  have w3 : ∀ o, workerWeight (WorkerPc.sendOutput o) = 3 := fun _ => rfl
  have w4 : ∀ m, workerWeight (WorkerPc.sendLog m) = 2 := fun _ => rfl
  have w5 : writerWeight WriterPc.recv = 1 := rfl
  unfold stepWorker at hs
  split at hs
  · exact absurd hs (by simp)
  · rename_i hi
    split at hs
    · cases hs; simp [runMeasure, hf]
    · cases hs
      have hw := weight_set s.workers i _ WorkerPc.recv hi
      rw [w0, w1] at hw
      simp only [runMeasure]
      omega
  · rename_i hi
    split at hs
    · rename_i key rest hbuf
      cases hs
      have hw := weight_set s.workers i _ (afterFetch env key) hi
      have ha := afterFetch_weight env key
      rw [w1] at hw
      simp only [runMeasure, hbuf, List.length_cons]
      omega
    · split at hs
      · cases hs
        have hw := weight_set s.workers i _ WorkerPc.exited hi
        rw [w1, w2] at hw
        simp only [runMeasure]
        omega
      · exact absurd hs (by simp)
  · rename_i o hi
    split at hs
    · cases hs; simp [runMeasure, hp]
    · split at hs
      · rename_i hrecv
        cases hs
        have hw := weight_set s.workers i _ WorkerPc.recv hi
        have ha := afterWrite_weight env s.writer o
        rw [w1, w3] at hw
        simp only [runMeasure, hrecv, w5]
        omega
      · exact absurd hs (by simp)
  · rename_i m hi
    cases hs
    obtain ⟨_, f2, _, _, f5, f6, _, _, _, f10, f11, f12, _⟩ := logSend_fields s m
    have hpm := logSend_measure s m hp
    have hfm := logSend_fatal s m
    have hw := weight_set s.workers i _ WorkerPc.recv hi
    rw [w1, w4] at hw
    simp only [runMeasure, f2, f6, f10, f11, f12, hfm]
    omega
  · exact absurd hs (by simp)

theorem measure_stepWriter (env : Env) (s t : RunState) (hp : s.panicked = false)
    (hs : stepWriter env s = some t) : runMeasure t < runMeasure s := by
  unfold stepWriter at hs
  split at hs
  · rename_i m hpc
    cases hs
    obtain ⟨_, f2, _, _, f5, f6, _, _, _, f10, f11, f12, _⟩ := logSend_fields s m
    have hpm := logSend_measure s m hp
    have hfm := logSend_fatal s m
    simp only [runMeasure, f2, f5, f10, f11, f12, hpc, writerWeight, hfm]
    omega
  · rename_i hpc
    split at hs
    · split at hs
      · exact absurd hs (by simp)
      · cases hs
        simp only [runMeasure, hpc, writerWeight]
        omega
    · exact absurd hs (by simp)
  · exact absurd hs (by simp)

theorem measure_stepSink (env : Env) (s t : RunState)
    (hs : stepSink env s = some t) : runMeasure t < runMeasure s := by
  unfold stepSink at hs
  split at hs
  · rename_i hg
    cases hs
    simp only [Bool.and_eq_true, Bool.not_eq_true'] at hg
    simp [runMeasure, hg.2]
  · exact absurd hs (by simp)

theorem measure_stepMain (env : Env) (s t : RunState) (hp : s.panicked = false)
    (hs : stepMain env s = some t) : runMeasure t < runMeasure s := by
  unfold stepMain at hs
  split at hs <;> (try split at hs) <;> (try (simp at hs)) <;> (try subst hs) <;>
    simp_all [runMeasure, MainPc.idx]

theorem measure_step (env : Env) (s t : RunState) (a : Action)
    (hs : step env s a = some t) : runMeasure t < runMeasure s := by
  obtain ⟨hp, hf, _⟩ := guard_of_step env s t a hs
  unfold step at hs
  split at hs
  · exact absurd hs (by simp)
  · cases a with
    | src => exact measure_stepSrc env s t hp hs
    | worker i => exact measure_stepWorker env s t i hp hf hs
    | writer => exact measure_stepWriter env s t hp hs
    | sink => exact measure_stepSink env s t hs
    | main => exact measure_stepMain env s t hp hs

theorem measure_run (env : Env) (acts : List Action) (s t : RunState)
    (hr : run env s acts = some t) : acts.length + runMeasure t ≤ runMeasure s := by
  induction acts generalizing s with
  | nil => simp only [run, Option.some.injEq] at hr; subst hr; simp
  | cons a rest ih =>
      simp only [run] at hr
      split at hr
      · exact absurd hr (by simp)
      · rename_i u hu
        have h1 := ih u hr
        have h2 := measure_step env s u a hu
        simp only [List.length_cons]
        omega

theorem step_of_guard (env : Env) (s : RunState) (a : Action) (hp : s.panicked = false)
    (hf : s.fatal = false) (hd : s.mainPc ≠ MainPc.done) :
    step env s a =
      match a with
      | Action.src => stepSrc env s
      | Action.worker i => stepWorker env s i
      | Action.writer => stepWriter env s
      | Action.sink => stepSink env s
      | Action.main => stepMain env s := by
  unfold step
  rw [if_neg]
  simp [hp, hf, hd]

theorem stepSrc_enabled (env : Env) (hN : 1 ≤ env.numThreads) (s : RunState)
    (hk : KeysInv env s) (hc : s.keysClosed = false) (hbuf : s.keysBuf = []) :
    ∃ t, stepSrc env s = some t := by
  rcases hk.srcShape with hh | hh
  · obtain ⟨_, pre, hsrc, _⟩ := hh
    unfold stepSrc
    cases hs : s.src with
    | nil => rw [hs] at hsrc; cases pre <;> simp at hsrc
    | cons ev rest =>
        cases ev with
        | sendKey key =>
            simp only [hc, Bool.false_eq_true, if_false, hbuf, List.length_nil]
            rw [if_pos (by omega)]
            exact ⟨_, rfl⟩
        | sendLog m => exact ⟨_, rfl⟩
        | closeFh => exact ⟨_, rfl⟩
        | closeKeys =>
            simp only [hc, Bool.false_eq_true, if_false]
            exact ⟨_, rfl⟩
  · rw [hc] at hh; cases hh.1

theorem exists_step (env : Env) (hN : 1 ≤ env.numThreads) (s : RunState)
    (ho : OrderInv s) (hk : KeysInv env s) (hp : s.panicked = false)
    (hf : s.fatal = false) (hd : s.mainPc ≠ MainPc.done) :
    ∃ a t, step env s a = some t := by
  cases hpc : s.mainPc with
  | waitWorkers =>
      by_cases hall : s.workers.all (fun pc => pc == WorkerPc.exited) = true
      · refine ⟨Action.main, ?_⟩
        rw [step_of_guard env s _ hp hf hd]
        simp only [stepMain, hpc, hall, if_true]
        exact ⟨_, rfl⟩
      · simp only [List.all_eq_true, beq_iff_eq, not_forall] at hall
        obtain ⟨pc, hmem, hne⟩ := hall
        obtain ⟨i, hi⟩ := List.getElem?_of_mem hmem
        have h0 : s.mainPc.idx = 0 := by rw [hpc]; rfl
        cases pc with
        | exited => exact absurd rfl hne
        | start =>
            refine ⟨Action.worker i, ?_⟩
            rw [step_of_guard env s _ hp hf hd]
            simp only [stepWorker, hi]
            split <;> exact ⟨_, rfl⟩
        | recv =>
            cases hbuf : s.keysBuf with
            | cons key rest =>
                refine ⟨Action.worker i, ?_⟩
                rw [step_of_guard env s _ hp hf hd]
                simp only [stepWorker, hi, hbuf]
                exact ⟨_, rfl⟩
            | nil =>
                cases hc : s.keysClosed with
                | true =>
                    refine ⟨Action.worker i, ?_⟩
                    rw [step_of_guard env s _ hp hf hd]
                    simp only [stepWorker, hi, hbuf, hc, if_true]
                    exact ⟨_, rfl⟩
                | false =>
                    refine ⟨Action.src, ?_⟩
                    rw [step_of_guard env s _ hp hf hd]
                    exact stepSrc_enabled env hN s hk hc hbuf
        | sendOutput o =>
            have hoc := outputClosed_of_idx s ho (by omega)
            cases hw : s.writerPc with
            | recv =>
                refine ⟨Action.worker i, ?_⟩
                rw [step_of_guard env s _ hp hf hd]
                simp only [stepWorker, hi, hoc, hw, Bool.false_eq_true, if_false, if_true]
                exact ⟨_, rfl⟩
            | sendLog m =>
                refine ⟨Action.writer, ?_⟩
                rw [step_of_guard env s _ hp hf hd]
                simp only [stepWriter, hw]
                exact ⟨_, rfl⟩
            | exited =>
                have := ho.writerOut hw
                rw [hoc] at this
                cases this
        | sendLog m =>
            refine ⟨Action.worker i, ?_⟩
            rw [step_of_guard env s _ hp hf hd]
            simp only [stepWorker, hi]
            exact ⟨_, rfl⟩
  | closeOutput =>
      refine ⟨Action.main, ?_⟩
      rw [step_of_guard env s _ hp hf hd]
      simp only [stepMain, hpc]
      split <;> exact ⟨_, rfl⟩
  | waitWriter =>
      have h2 : s.mainPc.idx = 2 := by rw [hpc]; rfl
      cases hw : s.writerPc with
      | exited =>
          refine ⟨Action.main, ?_⟩
          rw [step_of_guard env s _ hp hf hd]
          simp only [stepMain, hpc, hw, if_true]
          exact ⟨_, rfl⟩
      | sendLog m =>
          refine ⟨Action.writer, ?_⟩
          rw [step_of_guard env s _ hp hf hd]
          simp only [stepWriter, hw]
          exact ⟨_, rfl⟩
      | recv =>
          have hoc : s.outputClosed = true := ho.outputClosed.2 (by omega)
          have hsb := ho.statsBuf (by omega)
          simp only [hw, reduceCtorEq, if_false] at hsb
          refine ⟨Action.writer, ?_⟩
          rw [step_of_guard env s _ hp hf hd]
          simp only [stepWriter, hw, hoc, hsb, if_true]
          exact ⟨_, rfl⟩
  | recvStats =>
      have h3 : s.mainPc.idx = 3 := by rw [hpc]; rfl
      have hw := ho.writer (by omega)
      have hsb := ho.statsBuf (by omega)
      simp only [hw, if_true] at hsb
      refine ⟨Action.main, ?_⟩
      rw [step_of_guard env s _ hp hf hd]
      simp only [stepMain, hpc, hsb]
      exact ⟨_, rfl⟩
  | closeLog =>
      refine ⟨Action.main, ?_⟩
      rw [step_of_guard env s _ hp hf hd]
      simp only [stepMain, hpc]
      split <;> exact ⟨_, rfl⟩
  | waitLog =>
      have h5 : s.mainPc.idx = 5 := by rw [hpc]; rfl
      cases hse : s.sinkExited with
      | true =>
          refine ⟨Action.main, ?_⟩
          rw [step_of_guard env s _ hp hf hd]
          simp only [stepMain, hpc, hse, if_true]
          exact ⟨_, rfl⟩
      | false =>
          have hlc : s.logClosed = true := ho.logClosed.2 (by omega)
          refine ⟨Action.sink, ?_⟩
          rw [step_of_guard env s _ hp hf hd]
          simp only [stepSink, hlc, hse, Bool.not_false, Bool.and_self, if_true]
          exact ⟨_, rfl⟩
  | summary =>
      refine ⟨Action.main, ?_⟩
      rw [step_of_guard env s _ hp hf hd]
      simp only [stepMain, hpc]
      exact ⟨_, rfl⟩
  | done => exact absurd hpc hd

theorem noFatal_step (env : Env) (hcfg : env.LoadDefaultConfig = none) (s t : RunState)
    (a : Action) (hs : step env s a = some t) : t.fatal = false := by
  have hf := (guard_of_step env s t a hs).2.1
  unfold step at hs
  split at hs
  · exact absurd hs (by simp)
  · cases a with
    | src =>
        simp only at hs
        unfold stepSrc at hs
        split at hs
        · exact absurd hs (by simp)
        · split at hs
          · cases hs; exact hf
          · split at hs
            · cases hs; exact hf
            · exact absurd hs (by simp)
        · rename_i m rest hsrc
          cases hs
          exact (logSend_fatal s m).trans hf
        · cases hs; exact hf
        · split at hs
          · cases hs; exact hf
          · cases hs; exact hf
    | worker i =>
        simp only at hs
        unfold stepWorker at hs
        split at hs
        · exact absurd hs (by simp)
        · simp only [hcfg] at hs
          cases hs; exact hf
        · split at hs
          · cases hs; exact hf
          · split at hs
            · cases hs; exact hf
            · exact absurd hs (by simp)
        · split at hs
          · cases hs; exact hf
          · split at hs
            · cases hs; exact hf
            · exact absurd hs (by simp)
        · rename_i m hi
          cases hs
          exact (logSend_fatal s m).trans hf
        · exact absurd hs (by simp)
    | writer =>
        simp only at hs
        unfold stepWriter at hs
        split at hs
        · rename_i m hpc
          cases hs
          exact (logSend_fatal s m).trans hf
        · split at hs
          · split at hs
            · exact absurd hs (by simp)
            · cases hs; exact hf
          · exact absurd hs (by simp)
        · exact absurd hs (by simp)
    | sink =>
        simp only at hs
        unfold stepSink at hs
        split at hs
        · cases hs; exact hf
        · exact absurd hs (by simp)
    | main =>
        simp only at hs
        unfold stepMain at hs
        split at hs
        · split at hs
          · cases hs; exact hf
          · exact absurd hs (by simp)
        · split at hs
          · cases hs; exact hf
          · cases hs; exact hf
        · split at hs
          · cases hs; exact hf
          · exact absurd hs (by simp)
        · split at hs
          · cases hs; exact hf
          · exact absurd hs (by simp)
        · split at hs
          · cases hs; exact hf
          · cases hs; exact hf
        · split at hs
          · cases hs; exact hf
          · exact absurd hs (by simp)
        · cases hs; exact hf
        · exact absurd hs (by simp)

theorem noFatal_run (env : Env) (hcfg : env.LoadDefaultConfig = none) (acts : List Action)
    (s t : RunState) (hf : s.fatal = false) (hr : run env s acts = some t) :
    t.fatal = false := by
  induction acts generalizing s with
  | nil => simp only [run, Option.some.injEq] at hr; subst hr; exact hf
  | cons a rest ih =>
      simp only [run] at hr
      split at hr
      · exact absurd hr (by simp)
      · rename_i u hu
        exact ih u (noFatal_step env hcfg s u a hu) hr

theorem can_complete (env : Env) (hN : 1 ≤ env.numThreads)
    (hcfg : env.LoadDefaultConfig = none) (n : Nat) (s : RunState)
    (ho : OrderInv s) (hk : KeysInv env s) (hp : s.panicked = false)
    (hf : s.fatal = false) (hn : runMeasure s ≤ n) :
    ∃ acts t, run env s acts = some t ∧ t.mainPc = MainPc.done := by
  induction n generalizing s with
  | zero =>
      have : runMeasure s = 0 := by omega
      simp only [runMeasure, hp] at this
      simp at this
  | succ k ih =>
      by_cases hd : s.mainPc = MainPc.done
      · exact ⟨[], s, rfl, hd⟩
      · obtain ⟨a, u, hu⟩ := exists_step env hN s ho hk hp hf hd
        have hm := measure_step env s u a hu
        obtain ⟨acts, t, hr, ht⟩ := ih u (orderInv_step env s u a ho hu)
          (keysInv_step env s u a hk hu) (noPanic_step env hN s u a ho hk hu)
          (noFatal_step env hcfg s u a hu) (by omega)
        refine ⟨a :: acts, t, ?_, ht⟩
        simp only [run, hu]
        exact hr

theorem writeCalls_writeStep_full (w : Nat) (outFh : Option OutFile) (o : Output)
    (st : WriterState) :
    writeCalls (writeStep w outFh o st).trace =
      writeCalls st.trace ++
        [(formatOutput o, WriteString outFh st.calls (formatOutput o))] := by
  cases h : WriteString outFh st.calls (formatOutput o) <;>
    simp [writeStep, h, writeCalls_append, writeCalls]

theorem writesInv_init (env : Env) : WritesInv env (initState env) := by
  intro c hc
  have hw : (writeCalls (writerStart env.osOpenFile).2) = [] := by
    cases env.osOpenFile <;> rfl
  simp [initState, hw] at hc

theorem writesInv_of_trace (env : Env) (s t : RunState) (h : WritesInv env s)
    (ht : writeCalls t.writer.trace = writeCalls s.writer.trace) : WritesInv env t := by
  intro c hc
  rw [ht] at hc
  exact h c hc

theorem writesInv_step (env : Env) (s t : RunState) (a : Action) (h : WritesInv env s)
    (hs : step env s a = some t) : WritesInv env t := by
  unfold step at hs
  split at hs
  · exact absurd hs (by simp)
  · cases a with
    | src =>
        simp only at hs
        unfold stepSrc at hs
        split at hs
        · exact absurd hs (by simp)
        · split at hs
          · cases hs; exact writesInv_of_trace env s _ h rfl
          · split at hs
            · cases hs; exact writesInv_of_trace env s _ h rfl
            · exact absurd hs (by simp)
        · rename_i m rest hsrc
          cases hs
          obtain ⟨_, _, _, _, _, _, f7, _⟩ := logSend_fields s m
          exact writesInv_of_trace env s _ h (by simp [f7])
        · cases hs; exact writesInv_of_trace env s _ h rfl
        · split at hs
          · cases hs; exact writesInv_of_trace env s _ h rfl
          · cases hs; exact writesInv_of_trace env s _ h rfl
    | worker i =>
        simp only at hs
        unfold stepWorker at hs
        split at hs
        · exact absurd hs (by simp)
        · split at hs
          · cases hs; exact writesInv_of_trace env s _ h rfl
          · cases hs; exact writesInv_of_trace env s _ h rfl
        · split at hs
          · cases hs; exact writesInv_of_trace env s _ h rfl
          · split at hs
            · cases hs; exact writesInv_of_trace env s _ h rfl
            · exact absurd hs (by simp)
        · rename_i o hi
          split at hs
          · cases hs; exact writesInv_of_trace env s _ h rfl
          · split at hs
            · cases hs
              intro c hc
              simp only [writeCalls_writeStep_full, List.mem_append, List.mem_singleton] at hc
              rcases hc with hc | hc
              · exact h c hc
              · subst hc
                exact ⟨s.writer.calls, rfl⟩
            · exact absurd hs (by simp)
        · rename_i m hi
          cases hs
          obtain ⟨_, _, _, _, _, _, f7, _⟩ := logSend_fields s m
          exact writesInv_of_trace env s _ h (by simp [f7])
        · exact absurd hs (by simp)
    | writer =>
        simp only at hs
        unfold stepWriter at hs
        split at hs
        · rename_i m hpc
          cases hs
          obtain ⟨_, _, _, _, _, _, f7, _⟩ := logSend_fields s m
          exact writesInv_of_trace env s _ h (by simp [f7])
        · split at hs
          · split at hs
            · exact absurd hs (by simp)
            · cases hs
              exact writesInv_of_trace env s _ h (by simp [writeCalls_append, writeCalls])
          · exact absurd hs (by simp)
        · exact absurd hs (by simp)
    | sink =>
        simp only at hs
        unfold stepSink at hs
        split at hs
        · cases hs; exact writesInv_of_trace env s _ h rfl
        · exact absurd hs (by simp)
    | main =>
        simp only at hs
        unfold stepMain at hs
        split at hs <;> (try split at hs) <;> (try (simp at hs)) <;> (try subst hs) <;>
          exact writesInv_of_trace env s _ h rfl

theorem writesInv_run (env : Env) (acts : List Action) (s t : RunState)
    (h : WritesInv env s) (hr : run env s acts = some t) : WritesInv env t := by
  induction acts generalizing s with
  | nil => simp only [run, Option.some.injEq] at hr; subst hr; exact h
  | cons a rest ih =>
      simp only [run] at hr
      split at hr
      · exact absurd hr (by simp)
      · rename_i u hu
        exact ih u (writesInv_step env s u a h hu) hr

theorem outputLines_eq_attempted (calls : List (String × Option String))
    (h : ∀ c ∈ calls, c.2 = none) :
    calls.filterMap (fun c => match c.2 with
      | none => some c.1
      | some _ => none) = calls.map Prod.fst := by
  induction calls with
  | nil => rfl
  | cons c rest ih =>
      have hc := h c (List.mem_cons_self c rest)
      simp only [List.filterMap_cons, hc, List.map_cons]
      rw [ih (fun d hd => h d (List.mem_cons_of_mem c hd))]

theorem final_keys (env : Env) (hN : 1 ≤ env.numThreads) (acts : List Action)
    (s : RunState) (hr : run env (initState env) acts = some s)
    (hd : s.mainPc = MainPc.done) :
    (↑(s.received.map Prod.snd) : Multiset String) = ↑(keysSent (streamKeys env.osOpen)) := by
  have ho := orderInv_run env acts _ s (orderInv_init env) hr
  have hk := keysInv_run env acts _ s (keysInv_init env) hr
  have hl := keysOf_run env acts _ s hr
  rw [keysOf_init] at hl
  have hall := ho.workers (by simp [hd, MainPc.idx])
  have hlen : 0 < s.workers.length := by rw [hk.nWorkers]; omega
  obtain ⟨pc, hpc⟩ := List.exists_mem_of_length_pos hlen
  have hex := hall pc hpc
  rw [hex] at hpc
  obtain ⟨hclosed, hbuf⟩ := hk.exitedKeys hpc
  have hsrc : s.src = [] := by
    rcases hk.srcShape with hh | hh
    · rw [hclosed] at hh; cases hh.1
    · exact hh.2
  rw [← hl]
  simp [keysOf, pendingKeys, hbuf, hsrc, keysSent]

theorem mem_take_shutdownOrder (pc : MainPc) :
    (MainPc.waitWorkers ∈ shutdownOrder.take pc.idx ↔ 1 ≤ pc.idx) ∧
    (MainPc.closeOutput ∈ shutdownOrder.take pc.idx ↔ 2 ≤ pc.idx) ∧
    (MainPc.waitWriter ∈ shutdownOrder.take pc.idx ↔ 3 ≤ pc.idx) ∧
    (MainPc.recvStats ∈ shutdownOrder.take pc.idx ↔ 4 ≤ pc.idx) ∧
    (MainPc.closeLog ∈ shutdownOrder.take pc.idx ↔ 5 ≤ pc.idx) ∧
    (MainPc.waitLog ∈ shutdownOrder.take pc.idx ↔ 6 ≤ pc.idx) := by
  cases pc <;> decide

/-! ## Theorems on `Run` -/

/-- Claim C8: in every state of every run of `Run`, the shutdown statements
executed so far are an initial part of the fixed order: wait for the workers,
close the result channel, wait for the writer, receive the statistics, close
the log channel, wait for the log goroutine, emit the summary; they are the
whole of it when `Run` has returned.  Each wait has waited: once the wait for
the workers is executed every one of the `numThreads` workers has exited, once
the wait for the writer is executed the writer has exited, once the receive of
the statistics is executed `Run` holds the statistics of the writer, and once
the wait for the log goroutine is executed that goroutine has exited.  The
result channel is closed exactly by the close statement, hence only when every
worker has exited, and the log channel exactly by its close statement, hence
only when the statistics have been received. -/
theorem run_shutdown_order (env : Env) (acts : List Action) (s : RunState)
    (hr : run env (initState env) acts = some s) :
    s.mainTrace = shutdownOrder.take s.mainPc.idx ∧
    (s.mainPc = MainPc.done → s.mainTrace = shutdownOrder) ∧
    (s.outputClosed = true ↔ MainPc.closeOutput ∈ s.mainTrace) ∧
    (s.logClosed = true ↔ MainPc.closeLog ∈ s.mainTrace) ∧
    (s.outputClosed = true →
      s.workers.length = env.numThreads ∧ ∀ pc ∈ s.workers, pc = WorkerPc.exited) ∧
    (s.logClosed = true →
      MainPc.recvStats ∈ s.mainTrace ∧ s.stats = some (statsOf s.writer)) ∧
    (MainPc.waitWorkers ∈ s.mainTrace →
      s.workers.length = env.numThreads ∧ ∀ pc ∈ s.workers, pc = WorkerPc.exited) ∧
    (MainPc.waitWriter ∈ s.mainTrace → s.writerPc = WriterPc.exited) ∧
    (MainPc.recvStats ∈ s.mainTrace → s.stats = some (statsOf s.writer)) ∧
    (MainPc.waitLog ∈ s.mainTrace → s.sinkExited = true) := by
  have ho := orderInv_run env acts _ s (orderInv_init env) hr
  have hk := keysInv_run env acts _ s (keysInv_init env) hr
  obtain ⟨m1, m2, m3, m4, m5, m6⟩ := mem_take_shutdownOrder s.mainPc
  refine ⟨ho.trace, ?_, ?_, ?_, ?_, ?_, ?_, ?_, ?_, ?_⟩
  · intro hd
    rw [ho.trace, hd]
    rfl
  · rw [ho.trace, m2]; exact ho.outputClosed
  · rw [ho.trace, m5]; exact ho.logClosed
  · intro hc
    have h2 := ho.outputClosed.1 hc
    exact ⟨hk.nWorkers, ho.workers (by omega)⟩
  · intro hc
    have h5 := ho.logClosed.1 hc
    refine ⟨?_, ho.stats (by omega)⟩
    rw [ho.trace, m4]
    omega
  · intro hm
    rw [ho.trace, m1] at hm
    exact ⟨hk.nWorkers, ho.workers hm⟩
  · intro hm
    rw [ho.trace, m3] at hm
    exact ho.writer hm
  · intro hm
    rw [ho.trace, m4] at hm
    exact ho.stats hm
  · intro hm
    rw [ho.trace, m6] at hm
    exact ho.sink hm

/-- Witness of C8: a complete run of the sample environment with two workers. -/
theorem run_shutdown_order_witness :
    (run (sampleEnv 2) (initState (sampleEnv 2)) (sampleSchedule 2)).map
        (fun s => (s.mainPc, s.writerPc, s.sinkExited)) =
      some (MainPc.done, WriterPc.exited, true) ∧
    (run (sampleEnv 2) (initState (sampleEnv 2)) (sampleSchedule 2)).map
        (fun s => s.workers) = some [WorkerPc.exited, WorkerPc.exited] ∧
    (run (sampleEnv 2) (initState (sampleEnv 2)) (sampleSchedule 2)).map
        (fun s => s.mainTrace) = some shutdownOrder := by
  have hfin : (run (sampleEnv 2) (initState (sampleEnv 2)) (sampleSchedule 2)).map
      (fun s => (s.mainPc, s.writerPc, s.sinkExited)) =
        some (MainPc.done, WriterPc.exited, true) := by decide
  refine ⟨hfin, by decide, ?_⟩
  cases hr : run (sampleEnv 2) (initState (sampleEnv 2)) (sampleSchedule 2) with
  | none => rw [hr] at hfin; cases hfin
  | some s =>
      rw [hr] at hfin
      simp only [Option.map_some', Option.some.injEq, Prod.mk.injEq] at hfin
      simp only [Option.map_some', Option.some.injEq]
      exact (run_shutdown_order (sampleEnv 2) (sampleSchedule 2) s hr).2.1 hfin.1

/-- Counterexample to C9 as stated, in two parts.  The output depends on the
worker count: on the sample input a run with one worker writes the line of
`a.txt`, and a run with `numThreads = 0` returns with no line written, no
worker ever taking a key.  And the lines of the output file depend on the
interleaving when a write fails: with two workers and a file whose first
write fails, the run in which worker 0 sends first leaves the line of `b.txt`
alone written whole, and the run in which worker 1 sends first leaves the line
of `a.txt` alone written whole. -/
theorem run_output_depends_on_zero_workers :
    (run (sampleEnv 0) (initState (sampleEnv 0)) zeroSchedule).map
        (fun s => (s.mainPc, s.panicked, s.fatal, outputLines s)) =
      some (MainPc.done, false, false, []) ∧
    (run (sampleEnv 1) (initState (sampleEnv 1)) (sampleSchedule 1)).map
        (fun s => (s.mainPc, s.panicked, s.fatal, outputLines s)) =
      some (MainPc.done, false, false, [sampleLine]) ∧
    (run (sampleEnv 0) (initState (sampleEnv 0)) zeroSchedule).map outputLines ≠
      (run (sampleEnv 1) (initState (sampleEnv 1)) (sampleSchedule 1)).map outputLines ∧
    (run failingWriteEnv (initState failingWriteEnv) (failingWriteSchedule 0 1)).map
        (fun s => (s.mainPc, s.panicked, s.fatal, outputLines s)) =
      some (MainPc.done, false, false, [sampleLineB]) ∧
    (run failingWriteEnv (initState failingWriteEnv) (failingWriteSchedule 1 0)).map
        (fun s => (s.mainPc, s.panicked, s.fatal, outputLines s)) =
      some (MainPc.done, false, false, [sampleLine]) ∧
    ¬ List.Perm [sampleLineB] [sampleLine] := by
  refine ⟨by decide, by decide, by decide, by decide, by decide, ?_⟩
  rw [List.perm_singleton]
  decide

/-- Claim C9, amended: for every keys file, every object store that answers by
key and every worker count `n` of at least 1, no run panics, every run takes a
bounded number of steps, and in every complete run, whatever the interleaving,
every key sent on the key channel has been received once, by one of the `n`
workers, and the lines passed to `WriteString` are the same multiset: one line
per key whose fetch succeeds.  That multiset does not depend on `n`.  When no
write fails it is the multiset of lines of the output file.  When moreover the
configuration of the object store loads, `log.Fatal` never ends the process
and every run can be continued to a complete one. -/
theorem run_output_multiset (env : Env) (n : Nat) (hn : 1 ≤ n) :
    (∀ acts s,
      run { env with numThreads := n } (initState { env with numThreads := n }) acts = some s →
        s.panicked = false ∧
        acts.length ≤ runMeasure (initState { env with numThreads := n }) ∧
        (∀ p ∈ s.received, p.1 < n) ∧
        (s.mainPc = MainPc.done →
          s.fatal = false ∧
          (↑(s.received.map Prod.snd) : Multiset String) =
            ↑(keysSent (streamKeys env.osOpen)) ∧
          (↑(attemptedLines s) : Multiset String) = ↑(expectedLines env) ∧
          ((∀ k txt, WriteString (handleOf env.osOpenFile) k txt = none) →
            (↑(outputLines s) : Multiset String) = ↑(expectedLines env)))) ∧
    (env.LoadDefaultConfig = none →
      (∃ acts s,
        run { env with numThreads := n } (initState { env with numThreads := n }) acts
          = some s ∧ s.mainPc = MainPc.done) ∧
      ∀ acts s,
        run { env with numThreads := n } (initState { env with numThreads := n }) acts
          = some s →
          s.fatal = false ∧
          ∃ more t, run { env with numThreads := n } s more = some t ∧
            t.mainPc = MainPc.done) := by
  have hN : 1 ≤ ({ env with numThreads := n } : Env).numThreads := hn
  refine ⟨?_, ?_⟩
  · intro acts s hr
    have ho := orderInv_run _ acts _ s (orderInv_init _) hr
    have hp := noPanic_run _ hN acts _ s (orderInv_init _) (keysInv_init _) rfl hr
    have hm := measure_run _ acts _ s hr
    have hk := keysInv_run _ acts _ s (keysInv_init _) hr
    have hrw := received_workers_run _ acts _ s
      (fun p hp => by simp [initState] at hp) hr
    have hnw : s.workers.length = n := hk.nWorkers
    rw [hnw] at hrw
    refine ⟨hp, by omega, hrw, ?_⟩
    intro hd
    have hnf : s.fatal = false := by
      cases hfs : s.fatal with
      | false => rfl
      | true =>
          have h0 := ho.fatal hfs
          rw [hd] at h0
          cases h0
    have hfin := (final_lines _ hN acts s hr hd).2
    refine ⟨hnf, final_keys _ hN acts s hr hd, hfin, ?_⟩
    intro hall
    have hw := writesInv_run _ acts _ s (writesInv_init _) hr
    have heq : outputLines s = attemptedLines s := by
      unfold outputLines attemptedLines
      apply outputLines_eq_attempted
      intro c hc
      obtain ⟨k, hk⟩ := hw c hc
      rw [hk]
      exact hall k c.1
    rw [heq]
    exact hfin
  · intro hcfg
    have hcfg' : ({ env with numThreads := n } : Env).LoadDefaultConfig = none := hcfg
    refine ⟨?_, ?_⟩
    · exact can_complete _ hN hcfg' _ _ (orderInv_init _) (keysInv_init _) rfl rfl
        (le_refl _)
    · intro acts s hr
      have ho := orderInv_run _ acts _ s (orderInv_init _) hr
      have hk := keysInv_run _ acts _ s (keysInv_init _) hr
      have hp := noPanic_run _ hN acts _ s (orderInv_init _) (keysInv_init _) rfl hr
      have hf := noFatal_run _ hcfg' acts _ s rfl hr
      exact ⟨hf, can_complete _ hN hcfg' _ s ho hk hp hf (le_refl _)⟩

/-- Witness of C9: a complete run of the sample environment with 16 workers
writes exactly the line of `a.txt`, and the run can be completed. -/
theorem run_output_multiset_witness :
    (run { sampleEnv 0 with numThreads := 16 } (initState { sampleEnv 0 with numThreads := 16 })
        (sampleSchedule 16)).map (fun s => (s.mainPc, s.fatal, outputLines s)) =
      some (MainPc.done, false, [sampleLine]) ∧
    expectedLines (sampleEnv 0) = [sampleLine] ∧
    (run { sampleEnv 0 with numThreads := 16 } (initState { sampleEnv 0 with numThreads := 16 })
        (sampleSchedule 16)).map (fun s => (↑(outputLines s) : Multiset String)) =
      some ↑(expectedLines (sampleEnv 0)) ∧
    (∃ acts s,
      run { sampleEnv 0 with numThreads := 16 }
          (initState { sampleEnv 0 with numThreads := 16 }) acts = some s ∧
        s.mainPc = MainPc.done) := by
  have hfin : (run { sampleEnv 0 with numThreads := 16 }
      (initState { sampleEnv 0 with numThreads := 16 })
      (sampleSchedule 16)).map (fun s => (s.mainPc, s.fatal, outputLines s)) =
        some (MainPc.done, false, [sampleLine]) := by decide
  refine ⟨hfin, by decide, ?_,
    ((run_output_multiset (sampleEnv 0) 16 (by decide)).2 rfl).1⟩
  cases hr : run { sampleEnv 0 with numThreads := 16 }
      (initState { sampleEnv 0 with numThreads := 16 }) (sampleSchedule 16) with
  | none => rw [hr] at hfin; cases hfin
  | some s =>
      rw [hr] at hfin
      simp only [Option.map_some', Option.some.injEq, Prod.mk.injEq] at hfin
      simp only [Option.map_some', Option.some.injEq]
      exact (((run_output_multiset (sampleEnv 0) 16 (by decide)).1
        (sampleSchedule 16) s hr).2.2.2 hfin.1).2.2.2 (fun _ _ => rfl)

end S3Hash
